import Mathlib

set_option maxRecDepth 10000

/-!
# A verification development for the mini-agent orchestration engine

This file gives a shallow embedding, in Lean 4, of the core of the
`mini-agent` repository: the guard/policy layer (`src/guards/policy.py`),
the graph nodes (`src/graph/nodes.py`, `src/graph/state.py`) and the graph
topology (`src/graph/build_graph.py`), together with theorems about the
specified behaviour.

Modelling conventions:
* Python strings are modelled as `List Char` (with `String` wrappers);
  the character classes of Python's `re` module (`\w`, `\d`, ...) are
  modelled over ASCII.
* The regular expressions appearing in the source are fixed, so each is
  embedded as a dedicated anchored matcher that mirrors the backtracking
  behaviour of the Python engine on that pattern; `re.sub` is embedded as a
  left-to-right non-overlapping scan.
* External collaborators (the completion service, the embedding/vector
  index, the concrete tool callables, the system clock) are modelled as
  oracle parameters, universally quantified in the theorems.  The prompt
  strings handed to the completion service are not reconstructed
  character-for-character (the Python code interpolates runtime object
  representations into them); instead each completion response is an
  arbitrary oracle value, which subsumes every possible dependence of the
  service on its prompt.
* Timestamps (`datetime.now()`) are modelled by the position of the record
  in the `tool_calls` log.
-/

namespace MiniAgent

/-! ### Characters and word boundaries (ASCII model of Python `re`) -/

/-- Python `\w` over ASCII: letters, digits and underscore. -/
def isWordChar (c : Char) : Bool :=
  c.isAlphanum || c == '_'

/-- Word-character test on an optional character; positions outside of the
string count as non-word. -/
def wordB : Option Char → Bool
  | none => false
  | some c => isWordChar c

/-- Python `\b` at the position between `prev` and the character `c`. -/
def boundary (prev : Option Char) (c : Char) : Bool :=
  wordB prev != isWordChar c

/-- Python `\b` at the position between a last matched character `a` and the
following character (`none` at end of string). -/
def boundaryAfter (a : Char) (next : Option Char) : Bool :=
  isWordChar a != wordB next

/-! ### The PII patterns of `src/guards/policy.py` (`PII_PATTERNS`)

Each of the four patterns is embedded as an anchored matcher
`Option Char → List Char → Option Nat`: given the character preceding the
current position and the rest of the string, it returns the length of the
(unique, per the engine's backtracking order) match starting here, if any. -/

/-- Consume exactly `n` decimal digits (`\d{n}`), returning the rest. -/
def dropDigits : Nat → List Char → Option (List Char)
  | 0, s => some s
  | _ + 1, [] => none
  | n + 1, c :: s => if c.isDigit then dropDigits n s else none

/-- Anchored matcher for the SSN pattern `\b\d{3}-\d{2}-\d{4}\b`. -/
def ssnTry (prev : Option Char) (s : List Char) : Option Nat :=
  if wordB prev then none else
  match dropDigits 3 s with
  | some ('-' :: s1) =>
    match dropDigits 2 s1 with
    | some ('-' :: s2) =>
      match dropDigits 4 s2 with
      | some rest => if wordB rest.head? then none else some 11
      | none => none
    | _ => none
  | _ => none

/-- Anchored matcher for the phone pattern `\b\d{3}\.\d{3}\.\d{4}\b`. -/
def phoneTry (prev : Option Char) (s : List Char) : Option Nat :=
  if wordB prev then none else
  match dropDigits 3 s with
  | some ('.' :: s1) =>
    match dropDigits 3 s1 with
    | some ('.' :: s2) =>
      match dropDigits 4 s2 with
      | some rest => if wordB rest.head? then none else some 12
      | none => none
    | _ => none
  | _ => none

/-- Anchored matcher for the credit-card pattern `\b\d{16}\b`. -/
def ccTry (prev : Option Char) (s : List Char) : Option Nat :=
  if wordB prev then none else
  match dropDigits 16 s with
  | some rest => if wordB rest.head? then none else some 16
  | none => none

/-- The local-part class `[A-Za-z0-9._%+-]` of the email pattern. -/
def isLocalChar (c : Char) : Bool :=
  c.isAlphanum || c == '.' || c == '_' || c == '%' || c == '+' || c == '-'

/-- The domain class `[A-Za-z0-9.-]` of the email pattern. -/
def isDomainChar (c : Char) : Bool :=
  c.isAlphanum || c == '.' || c == '-'

/-- The top-level-domain class `[A-Z|a-z]` of the email pattern (the `|`
inside the character class is a literal). -/
def isTldChar (c : Char) : Bool :=
  c.isAlpha || c == '|'

/-- Backtracking search for the `[A-Z|a-z]{2,}\b` tail of the email pattern:
try top-level-domain lengths downward from the given candidate (which the
caller bounds by the length of the maximal run of TLD characters of `v`),
accepting the first length `≥ 2` whose following position is a word
boundary.  `v` is the string following the literal dot. -/
def tldSearch (v : List Char) : Nat → Option Nat
  | 0 => none
  | 1 => none
  | t + 2 =>
    match v.get? (t + 1) with
    | some a => if boundaryAfter a (v.get? (t + 2)) then some (t + 2) else tldSearch v (t + 1)
    | none => tldSearch v (t + 1)

/-- Backtracking search for the `[A-Za-z0-9.-]+\.[A-Z|a-z]{2,}\b` tail of the
email pattern: try domain lengths downward (the caller starts at the maximal
run of domain characters of `u`), requiring a literal dot after the domain
part and then a successful TLD search; returns the total matched length
within `u`. -/
def domSearch (u : List Char) : Nat → Option Nat
  | 0 => none
  | k + 1 =>
    match u.get? (k + 1) with
    | some c =>
      if c == '.' then
        let v := u.drop (k + 2)
        match tldSearch v (v.takeWhile isTldChar).length with
        | some t => some ((k + 1) + 1 + t)
        | none => domSearch u k
      else domSearch u k
    | none => domSearch u k

/-- Anchored matcher for the email pattern
`\b[A-Za-z0-9._%+-]+@[A-Za-z0-9.-]+\.[A-Z|a-z]{2,}\b`, following the
engine's backtracking order (maximal local part — the `@` is not a local
character, so no shorter split can succeed — then domain length and TLD
length tried longest-first). -/
def emailTry (prev : Option Char) (s : List Char) : Option Nat :=
  match s with
  | [] => none
  | c :: _ =>
    if !(boundary prev c) then none else
    let L := (s.takeWhile isLocalChar).length
    if L == 0 then none else
    match s.get? L with
    | some a =>
      if a == '@' then
        let u := s.drop (L + 1)
        match domSearch u (u.takeWhile isDomainChar).length with
        | some dlen => some (L + 1 + dlen)
        | none => none
      else none
    | none => none

/-! ### `re.sub` and `re.search` on these patterns -/

/-- The type of anchored matchers. -/
abbrev Matcher := Option Char → List Char → Option Nat

/-- One pass of `re.sub`: scan left to right, replace each match found and
resume immediately after it (non-overlapping), tracking the character that
precedes the current position in the *input* for the `\b` look-behinds. -/
def subAux (m : Matcher) (repl : List Char) : Option Char → List Char → List Char
  | _, [] => []
  | prev, c :: rest =>
    match m prev (c :: rest) with
    | none => c :: subAux m repl (some c) rest
    | some n => repl ++ subAux m repl ((c :: rest).get? (n - 1)) (rest.drop (n - 1))
termination_by _ s => s.length
decreasing_by
  all_goals simp [List.length_drop]
  all_goals omega

/-- `re.sub(pattern, repl, s)` for one of the PII patterns. -/
def reSub (m : Matcher) (repl : List Char) (s : List Char) : List Char :=
  subAux m repl none s

/-- `re.search` succeeds somewhere in `s` (with correct look-behind). -/
def hasMatchAux (m : Matcher) : Option Char → List Char → Bool
  | _, [] => false
  | prev, c :: rest => (m prev (c :: rest)).isSome || hasMatchAux m (some c) rest

/-- `s` contains a substring matching the pattern of `m`. -/
def hasMatch (m : Matcher) (s : List Char) : Bool :=
  hasMatchAux m none s

/-- Replacement text for the email pattern. -/
def replEmail : List Char := "[REDACTED_EMAIL]".data

/-- Replacement text for the SSN pattern. -/
def replSsn : List Char := "[REDACTED_SSN]".data

/-- Replacement text for the phone pattern. -/
def replPhone : List Char := "[REDACTED_PHONE]".data

/-- Replacement text for the credit-card pattern. -/
def replCc : List Char := "[REDACTED_CREDIT_CARD]".data

/-- The character preceding the position right after the segment `a`, when
the character before `a` was `pr`. -/
def prevAfter (pr : Option Char) : List Char → Option Char
  | [] => pr
  | c :: rest => prevAfter (some c) rest

/-- Positionwise character requirements of a fixed-shape pattern: the
string satisfies predicate `i` of the spec at offset `i`. -/
def matchesSpec (spec : List (Char → Bool)) (s : List Char) : Prop :=
  ∀ i q, spec.get? i = some q → ∃ c, s.get? i = some c ∧ q c = true

/-- The positionwise spec of the SSN body `\d{3}-\d{2}-\d{4}`. -/
def specSSN : List (Char → Bool) :=
  [Char.isDigit, Char.isDigit, Char.isDigit, (· == '-'), Char.isDigit, Char.isDigit,
   (· == '-'), Char.isDigit, Char.isDigit, Char.isDigit, Char.isDigit]

/-- The positionwise spec of the phone body `\d{3}\.\d{3}\.\d{4}`. -/
def specPhone : List (Char → Bool) :=
  [Char.isDigit, Char.isDigit, Char.isDigit, (· == '.'), Char.isDigit, Char.isDigit,
   Char.isDigit, (· == '.'), Char.isDigit, Char.isDigit, Char.isDigit, Char.isDigit]

/-- The positionwise spec of the credit-card body `\d{16}`. -/
def specCC : List (Char → Bool) :=
  List.replicate 16 Char.isDigit

/-- Model of `mask_pii` (`src/guards/policy.py`): substitute the four PII
patterns in the order listed in `PII_PATTERNS` (email, SSN, phone,
credit card).  The `re.findall` in the source only feeds logging. -/
def mask_pii (text : List Char) : List Char :=
  reSub ccTry replCc (reSub phoneTry replPhone (reSub ssnTry replSsn (reSub emailTry replEmail text)))

/-- `mask_pii` on `String`. -/
def maskPiiStr (s : String) : String :=
  ⟨mask_pii s.data⟩

/-! ### Substring search (for the refusal and grounding patterns)

The refusal and factual-intent regular expressions are alternations of
plain literals and of two-literal pieces joined by `.*`; `re.search` on such
a pattern is substring search, with `.*` bridging any gap free of `'\n'`
(the dot does not match a newline). -/

/-- Python `str.lower` over ASCII. -/
def toLowerL (s : List Char) : List Char :=
  s.map Char.toLower

/-- Python `str.strip` over ASCII whitespace. -/
def trimL (s : List Char) : List Char :=
  ((s.dropWhile Char.isWhitespace).reverse.dropWhile Char.isWhitespace).reverse

/-- `resp.strip().lower()` as used by the router. -/
def stripLower (s : String) : String :=
  ⟨toLowerL (trimL s.data)⟩

/-- `needle` occurs as a contiguous substring of the argument. -/
def containsSub (needle : List Char) : List Char → Bool
  | [] => needle.isEmpty
  | c :: rest => needle.isPrefixOf (c :: rest) || containsSub needle rest

/-- `.*post` matches a prefix of the argument: `post` occurs after a
newline-free gap. -/
def dotStarThen (post : List Char) : List Char → Bool
  | [] => post.isEmpty
  | c :: rest => post.isPrefixOf (c :: rest) || (!(c == '\n') && dotStarThen post rest)

/-- `re.search` for `pre.*post` on the argument. -/
def gapSearch (pre post : List Char) : List Char → Bool
  | [] => pre.isEmpty && dotStarThen post []
  | c :: rest =>
    (pre.isPrefixOf (c :: rest) && dotStarThen post ((c :: rest).drop pre.length))
      || gapSearch pre post rest

/-- One alternative of a refusal pattern: a literal, or `pre.*post`. -/
inductive RePiece where
  | lit : String → RePiece
  | gap : String → String → RePiece

/-- `re.search` for one alternative on an (already lowered) text. -/
def matchesPiece (s : List Char) : RePiece → Bool
  | .lit w => containsSub w.data s
  | .gap pre post => gapSearch pre.data post.data s

/-- `REFUSE_PATTERNS` from `src/guards/policy.py`, in source order, each
pattern decomposed into its alternatives. -/
def refusePatterns : List (List RePiece × String) :=
  [([.lit "legal advice", .lit "lawyer", .lit "legal counsel", .lit "sue",
     .lit "lawsuit", .lit "legal opinion"], "legal"),
   ([.lit "medical advice", .lit "diagnose", .lit "prescription", .lit "treatment",
     .lit "doctor", .lit "symptom", .lit "disease", .lit "medicine"], "medical"),
   ([.lit "financial advice", .lit "investment", .lit "trading", .lit "stock pick",
     .gap "buy" "stock", .gap "sell" "stock"], "financial"),
   ([.gap "generate" "letter", .gap "write" "contract", .gap "draft" "document",
     .gap "create" "legal"], "document_generation")]

/-- Model of `check_refuse_patterns`: the query is lowered, the patterns are
tried in order and the first matching pattern's category is returned.  The
Python pair `(should_refuse, reason)` is modelled as `Option String`. -/
def check_refuse_patterns (query : String) : Option String :=
  (refusePatterns.find? (fun p => p.1.any (matchesPiece (toLowerL query.data)))).map Prod.snd

/-- Model of `create_refusal_response` (the `query` argument of the source
is unused there). -/
def create_refusal_response (reason : String) : String :=
  if reason == "legal" then
    "I cannot provide legal advice. For legal questions, please consult with a qualified attorney. I can help answer questions about company policies and procedures based on our internal documents."
  else if reason == "medical" then
    "I cannot provide medical advice or diagnoses. For medical questions, please consult with a qualified healthcare provider. I can help answer questions about company policies and procedures."
  else if reason == "financial" then
    "I cannot provide financial or investment advice. For financial questions, please consult with a qualified financial advisor. I can help answer questions about company policies and procedures."
  else if reason == "document_generation" then
    "I cannot generate legal documents, contracts, or letters. For document generation needs, please consult with appropriate legal or administrative resources. I can help answer questions about company policies and procedures."
  else
    "I cannot assist with this request."

/-! ### Data model (`src/graph/state.py`) -/

/-- JSON-like values: tool arguments and results. -/
inductive Json where
  | null : Json
  | bool : Bool → Json
  | num : Int → Json
  | str : String → Json
  | arr : List Json → Json
  | obj : List (String × Json) → Json

/-- A retrieved chunk (a dict with `content` and `source` in the source). -/
structure Chunk where
  content : String
  source : String
deriving DecidableEq

/-- A `{role, content}` transcript entry. -/
structure ChatMessage where
  role : String
  content : String
deriving DecidableEq

/-- `ToolCall` (`src/graph/state.py`); the timestamp is modelled by the
record's position in the log. -/
structure ToolCall where
  name : String
  arguments : Json
  result : Json
  timestamp : Nat

/-- The run state (`State` in `src/graph/state.py`).  `final_answer` is
`Optional[str]` in the source, hence `Option String` here. -/
structure State where
  query : String
  retrieved_chunks : List Chunk
  final_answer : Option String
  citations : List String
  messages : List ChatMessage
  tool_calls : List ToolCall
  iteration_count : Nat

/-- `build_initial_state`: note that `final_answer` starts as `""`, not
`None`. -/
def build_initial_state (query : String) : State :=
  { query := query, retrieved_chunks := [], final_answer := some "",
    citations := [], messages := [], tool_calls := [], iteration_count := 0 }

/-! ### Remaining guard functions (`src/guards/policy.py`) -/

/-- `check_grounding_required`: with no retrieved chunks, a query matching a
factual-intent pattern fails grounding.  The two factual regular
expressions are alternations of plain literals. -/
def check_grounding_required (query : String) (retrieved_chunks : List Chunk) :
    Bool × Option String :=
  if retrieved_chunks.isEmpty then
    if ([["what is", "how much", "when", "where", "who", "explain", "describe"],
         ["policy", "procedure", "allowance", "rate", "formula"]].any
          (fun alts => alts.any (fun w => containsSub w.data (toLowerL query.data)))) then
      (false, some "Query requires grounding but no documents retrieved")
    else (true, none)
  else (true, none)

/-- Lexical model of `Path.resolve` segment processing: empty and `.`
segments are dropped, `..` removes the last segment (staying at the root
when there is none), other segments are appended. -/
def resolveSegs (base : List String) (segs : List String) : List String :=
  segs.foldl
    (fun acc seg =>
      if seg == "" || seg == "." then acc
      else if seg == ".." then acc.dropLast
      else acc ++ [seg])
    base

/-- Split a character list into path segments at `/`. -/
def splitSlashAux (cur : List Char) : List Char → List String
  | [] => [⟨cur.reverse⟩]
  | c :: rest => if c == '/' then ⟨cur.reverse⟩ :: splitSlashAux [] rest
                 else splitSlashAux (c :: cur) rest

/-- Lexical model of `Path(p).resolve()`: absolute paths (leading `/`) are
normalised from the root, relative ones from the (absolute, canonical)
current directory `cwd`.  Symbolic links do not exist in this model, so
resolution is purely lexical. -/
def resolvePath (cwd : List String) (p : String) : List String :=
  match p.data with
  | '/' :: _ => resolveSegs [] (splitSlashAux [] p.data)
  | _ => resolveSegs cwd (splitSlashAux [] p.data)

/-- Render an absolute path from its segments. -/
def renderAbs (segs : List String) : String :=
  "/" ++ String.intercalate "/" segs

/-- `SANDBOX_DIR = PROJECT_ROOT / "data" / "sandbox"`, with the (absolute,
canonical) project root abstracted as a segment list. -/
def sandboxSegs (root : List String) : List String :=
  root ++ ["data", "sandbox"]

/-- Model of `validate_file_path`: resolve the argument and accept it
exactly when `requested.relative_to(sandbox)` succeeds, i.e. when the
sandbox path is a prefix of the resolved path. -/
def validate_file_path (root cwd : List String) (file_path : String) :
    Bool × Option String :=
  let requested := resolvePath cwd file_path
  let sandbox := sandboxSegs root
  if sandbox.isPrefixOf requested then (true, none)
  else (false, some ("Path " ++ file_path ++ " is outside sandbox directory " ++ renderAbs sandbox))

/-- First failing path validation, if any (the loop in `apply_guards`). -/
def firstPathError (root cwd : List String) : List String → Option String
  | [] => none
  | p :: ps =>
    match validate_file_path root cwd p with
    | (true, _) => firstPathError root cwd ps
    | (_, err) => err

/-- Model of `apply_guards`: refusal check, then PII masking of the query,
then the grounding check (only when chunks were supplied), then path
validation (only when a non-empty path list was supplied). -/
def apply_guards (root cwd : List String) (query : String)
    (retrieved_chunks : Option (List Chunk)) (file_paths : Option (List String)) :
    Bool × Option String × Option String :=
  match check_refuse_patterns query with
  | some reason => (false, some (create_refusal_response reason), none)
  | none =>
    let masked := maskPiiStr query
    let groundingFailure : Option (Bool × Option String × Option String) :=
      match retrieved_chunks with
      | some chunks =>
        let g := check_grounding_required query chunks
        if !g.1 then some (false, g.2, some masked) else none
      | none => none
    match groundingFailure with
    | some r => r
    | none =>
      match file_paths with
      | some ps =>
        if ps.isEmpty then (true, none, some masked)
        else
          match firstPathError root cwd ps with
          | some err => (false, some err, some masked)
          | none => (true, none, some masked)
      | none => (true, none, some masked)

/-! ### Configuration defaults consumed by the nodes (`src/config.py`) -/

/-- Default of `MAX_NODE_ITERATIONS`. -/
def MAX_NODE_ITERATIONS : Nat := 10

/-- Default of `MAX_TOOL_HOPS`. -/
def MAX_TOOL_HOPS : Nat := 3

/-! ### Graph nodes (`src/graph/nodes.py`) -/

/-- Python truthiness of an optional string. -/
def optTruthy : Option String → Bool
  | none => false
  | some s => !(s == "")

/-- Truthiness of `o` and of `o.strip()` (the `guard_router` test). -/
def stripTruthy : Option String → Bool
  | none => false
  | some s => !(s == "") && !(trimL s.data).isEmpty

/-- Models `initialize_node`: rebuild a fresh state from the query. -/
def initial_node (st : State) : State :=
  build_initial_state st.query

/-- Model of `guard_node`: run the guards on the query (no chunks, no
paths); on refusal store the refusal message and, when a masked query was
returned and differs, rewrite the query. -/
def guard_node (root cwd : List String) (st : State) : State :=
  let g := apply_guards root cwd st.query none none
  if !g.1 then
    let st1 := { st with final_answer := g.2.1 }
    match g.2.2 with
    | some mq => if !(mq == "") && !(mq == st.query) then { st1 with query := mq } else st1
    | none => st1
  else st

/-- Model of `router`: the deterministic iteration-ceiling pre-check, then
the completion response `resp` (an oracle value) is stripped, lowered and
checked against the three node names; anything else maps to `finalize`. -/
def router (resp : String) (st : State) : String :=
  if MAX_NODE_ITERATIONS < st.iteration_count then "finalize"
  else
    let decision := stripLower resp
    if decision == "rag" || decision == "tool" || decision == "finalize" then decision
    else "finalize"

/-- Model of `guard_router`: finalize when a refusal message was stored,
otherwise defer to `router`. -/
def guard_router (resp : String) (st : State) : String :=
  if stripTruthy st.final_answer then "finalize" else router resp st

/-- The collaborators consulted by one execution of `rag_node`: the
retrieval result for the query and the generated answer. -/
structure RagOracle where
  chunks : List Chunk
  answer : String

/-- Model of `rag_node`: retrieve (oracle), check grounding — on failure
store the grounding error, the retrieved chunks and empty citations and
return *without* touching `tool_calls` or `iteration_count`; otherwise
store the answer, deduplicated citation sources, append a `"rag"` record to
`tool_calls` and increment `iteration_count`. -/
def rag_node (o : RagOracle) (st : State) : State :=
  let retrieved := o.chunks
  let g := check_grounding_required st.query retrieved
  if !g.1 && optTruthy g.2 then
    { st with final_answer := g.2, retrieved_chunks := retrieved, citations := [] }
  else
    { st with retrieved_chunks := retrieved,
              final_answer := some o.answer,
              citations := (retrieved.map Chunk.source).dedup,
              tool_calls := st.tool_calls ++
                [{ name := "rag", arguments := Json.str st.query,
                   result := Json.str o.answer, timestamp := st.tool_calls.length }],
              iteration_count := st.iteration_count + 1 }

/-- A proposed tool invocation in a completion response. -/
structure ProposedCall where
  name : String
  arguments : Json

/-- A completion response in the tool loop: optional text content and a
(possibly empty) list of proposed tool invocations. -/
structure ChatResponse where
  content : Option String
  toolCalls : List ProposedCall

/-- The collaborators of `tool_node`: the completion response at each hop,
the answer-from-history completion (`generate_tool_call_answer`) and the
behaviour of each registered tool callable. -/
structure ToolOracle where
  resp : Nat → ChatResponse
  histAnswer : String → List ToolCall → String
  impl : String → Json → Except String Json

/-- The keys of the `tools` registry (`src/graph/registry.py`). -/
def toolNames : List String :=
  ["safe_calculate", "list_events", "create_event", "clear_events",
   "rag_search", "send_slack_message"]

/-- Execute one batch of proposed invocations: the registry lookup
`tools[tool_name]` is *outside* the `try`, so an unregistered name raises
an uncaught `KeyError`; a registered tool either returns a result or
raises, in which case the error text is recorded and execution continues.
Every attempted invocation is appended to the log. -/
def execCalls (o : ToolOracle) : List ProposedCall → List ToolCall → Except String (List ToolCall)
  | [], log => .ok log
  | c :: cs, log =>
    if c.name ∈ toolNames then
      match o.impl c.name c.arguments with
      | .ok v =>
        execCalls o cs (log ++ [{ name := c.name, arguments := c.arguments,
                                  result := v, timestamp := log.length }])
      | .error e =>
        execCalls o cs (log ++ [{ name := c.name, arguments := c.arguments,
                                  result := Json.str ("Error: " ++ e),
                                  timestamp := log.length }])
    else .error ("KeyError: " ++ c.name)

/-- Result of the bounded ReAct loop: the explicit final answer (if the
loop exited through the no-tool-calls branch), the updated log and the
number of completion calls made. -/
structure LoopOut where
  answer : Option String
  log : List ToolCall
  hops : Nat

/-- The bounded ReAct loop of `tool_node` (`for _ in range(MAX_TOOL_HOPS)`),
with `fuel` the remaining hop budget and `hop` the index of the next
completion call: if the response proposes no tool calls its content is the
final answer and the loop exits; otherwise the whole batch is executed and
the loop continues. -/
def toolLoop (o : ToolOracle) : Nat → Nat → List ToolCall → Except String LoopOut
  | 0, _, log => .ok { answer := none, log := log, hops := 0 }
  | fuel + 1, hop, log =>
    let resp := o.resp hop
    if resp.toolCalls.isEmpty then
      .ok { answer := some ⟨trimL (resp.content.getD "").data⟩, log := log, hops := 1 }
    else
      match execCalls o resp.toolCalls log with
      | .error e => .error e
      | .ok log1 =>
        match toolLoop o fuel (hop + 1) log1 with
        | .error e => .error e
        | .ok out => .ok { answer := out.answer, log := out.log, hops := out.hops + 1 }

/-- The final answer computed after the loop: `if not final_answer:` makes
both a missing and an empty loop answer fall back to the
answer-from-history completion over the updated log. -/
def answerOf (o : ToolOracle) (query : String) (out : LoopOut) : String :=
  match out.answer with
  | some a => if !(a == "") then a else o.histAnswer query out.log
  | none => o.histAnswer query out.log

/-- Model of `tool_node`: run the bounded loop; if it produced no truthy
final answer, synthesize one from the *updated* full log via the
answer-from-history completion; store the answer and increment
`iteration_count`.  An uncaught `KeyError` from the loop propagates. -/
def tool_node (o : ToolOracle) (st : State) : Except String State :=
  match toolLoop o MAX_TOOL_HOPS 0 st.tool_calls with
  | .error e => .error e
  | .ok out =>
    .ok { st with tool_calls := out.log, final_answer := some (answerOf o st.query out),
                  iteration_count := st.iteration_count + 1 }

/-- Model of `finalize_node`: when the final answer is truthy, overwrite it
with its PII-masked form and append the assistant message. -/
def finalize_node (st : State) : State :=
  match st.final_answer with
  | some fa =>
    if !(fa == "") then
      { st with final_answer := some (maskPiiStr fa),
                messages := st.messages ++ [{ role := "assistant", content := maskPiiStr fa }] }
    else st
  | none => st

/-! ### The graph (`src/graph/build_graph.py`) -/

/-- The nodes of the compiled graph (plus a terminal pseudo-node for `END`);
`start` models the `initialize` node. -/
inductive GNode where
  | start
  | guard
  | rag
  | tool
  | finalize
  | terminal
deriving DecidableEq

/-- Interpret a conditional-edge decision as a node. -/
def toGNode (s : String) : GNode :=
  if s == "rag" then .rag else if s == "tool" then .tool else .finalize

/-- One transition of the compiled graph: execute the node at the current
configuration and move along its (conditional) edge, with all collaborator
behaviour existentially packaged in the constructors.  A `tool`
configuration whose loop raises has no successor (the process aborts). -/
inductive Step (root cwd : List String) : GNode × State → GNode × State → Prop where
  | start (st : State) :
      Step root cwd (.start, st) (.guard, initial_node st)
  | guard (st : State) (resp : String) :
      Step root cwd (.guard, st)
        (toGNode (guard_router resp (guard_node root cwd st)), guard_node root cwd st)
  | rag (st : State) (o : RagOracle) (resp : String) :
      Step root cwd (.rag, st) (toGNode (router resp (rag_node o st)), rag_node o st)
  | tool (st st' : State) (o : ToolOracle) (resp : String) (h : tool_node o st = .ok st') :
      Step root cwd (.tool, st) (toGNode (router resp st'), st')
  | finalize (st : State) :
      Step root cwd (.finalize, st) (.terminal, finalize_node st)

/-- Reachability along graph transitions. -/
abbrev Reaches (root cwd : List String) : GNode × State → GNode × State → Prop :=
  Relation.ReflTransGen (Step root cwd)

/-! ### Concrete collaborator behaviours used as test vectors -/

/-- The citations invariant: every citation is the source of a currently
retrieved chunk. -/
def citationsInv (st : State) : Prop :=
  ∀ x ∈ st.citations, x ∈ st.retrieved_chunks.map Chunk.source

/-- The argument mapping `{"expr": "2 + 2"}`. -/
def dupArgs : Json :=
  Json.obj [("expr", Json.str "2 + 2")]

/-- A completion-service behaviour that proposes the identical
`safe_calculate` invocation on every hop. -/
def dupOracle : ToolOracle :=
  { resp := fun _ => { content := none, toolCalls := [{ name := "safe_calculate", arguments := dupArgs }] },
    histAnswer := fun _ _ => "synthesized",
    impl := fun _ _ => Except.ok (Json.num 4) }

/-- A completion-service behaviour that proposes an unregistered tool name. -/
def badOracle : ToolOracle :=
  { resp := fun _ => { content := none, toolCalls := [{ name := "bogus", arguments := Json.null }] },
    histAnswer := fun _ _ => "h",
    impl := fun _ _ => Except.ok Json.null }

/-- A completion-service behaviour that immediately answers in text. -/
def textOracle : ToolOracle :=
  { resp := fun _ => { content := some "done", toolCalls := [] },
    histAnswer := fun _ _ => "h",
    impl := fun _ _ => Except.ok Json.null }

/-- The refused query of end-to-end scenario C. -/
def refusalQuery : String := "Can I sue my employer for discrimination?"

/-! ## Theorems -/

/-- `containsSub` is substring occurrence. -/
theorem containsSub_iff (n s : List Char) : containsSub n s = true ↔ n <:+: s := by
  induction s with
  | nil =>
    simp [containsSub, List.isEmpty_iff]
  | cons c rest ih =>
    simp [containsSub, ih, List.infix_cons_iff, List.isPrefixOf_iff_prefix]

/-- **C5.** The router always returns one of the three tokens `rag`,
`tool`, `finalize`; when `iteration_count` exceeds the configured ceiling
it returns `finalize` for every completion response (so the decision is
independent of the completion service); and any response whose stripped,
lowered text is not exactly one of the three tokens defaults to
`finalize`. -/
theorem router_fail_safe (st : State) (resp : String) :
    (router resp st = "rag" ∨ router resp st = "tool" ∨ router resp st = "finalize")
    ∧ (MAX_NODE_ITERATIONS < st.iteration_count → router resp st = "finalize")
    ∧ (¬ (stripLower resp = "rag" ∨ stripLower resp = "tool" ∨ stripLower resp = "finalize")
        → router resp st = "finalize") := by
  refine ⟨?_, ?_, ?_⟩
  · simp only [router]
    split_ifs with h1 h2
    · exact Or.inr (Or.inr rfl)
    · simp only [Bool.or_eq_true, beq_iff_eq] at h2
      tauto
    · exact Or.inr (Or.inr rfl)
  · intro h
    simp only [router, if_pos h]
  · intro h
    simp only [router]
    split_ifs with h1 h2
    · rfl
    · simp only [Bool.or_eq_true, beq_iff_eq] at h2
      tauto
    · rfl

/-- Witness for `router_fail_safe`: a state past the ceiling together with
a garbage response is routed to `finalize`. -/
theorem router_fail_safe_witness :
    MAX_NODE_ITERATIONS <
      ({ build_initial_state "q" with iteration_count := 11 } : State).iteration_count
    ∧ router "garbage" { build_initial_state "q" with iteration_count := 11 } = "finalize" :=
  ⟨by decide,
   (router_fail_safe { build_initial_state "q" with iteration_count := 11 } "garbage").2.1
     (by decide)⟩

/-- **C9.** `validate_file_path` accepts exactly the paths whose (lexical,
canonical) resolution lies under the sandbox root; every path resolving
outside it — in particular any `..` escape — is rejected with an error
message containing "outside sandbox"; and `/etc/passwd` is rejected for
every project root and working directory. -/
theorem validate_file_path_sandbox (root cwd : List String) (p : String) :
    ((validate_file_path root cwd p).1 = true ↔
      (sandboxSegs root).isPrefixOf (resolvePath cwd p) = true)
    ∧ ((sandboxSegs root).isPrefixOf (resolvePath cwd p) = false →
        (validate_file_path root cwd p).1 = false ∧
        ∃ err, (validate_file_path root cwd p).2 = some err ∧
          containsSub "outside sandbox".data err.data = true)
    ∧ (validate_file_path root cwd "/etc/passwd").1 = false := by
  refine ⟨?_, ?_, ?_⟩
  · simp only [validate_file_path]
    split_ifs with h <;> simp [h]
  · intro h
    simp only [validate_file_path, h]
    refine ⟨rfl, _, rfl, ?_⟩
    rw [containsSub_iff]
    refine List.IsInfix.trans
      (show "outside sandbox".data <:+: (" is outside sandbox directory ").data by decide) ?_
    refine ⟨("Path " ++ p).data, (renderAbs (sandboxSegs root)).data, ?_⟩
    simp [String.data_append]
  · have hres : resolvePath cwd "/etc/passwd" = ["etc", "passwd"] := rfl
    have hpre : (sandboxSegs root).isPrefixOf (resolvePath cwd "/etc/passwd") = false := by
      rw [hres]
      by_contra hc
      rw [Bool.not_eq_false, List.isPrefixOf_iff_prefix] at hc
      rcases hc with ⟨t, ht⟩
      unfold sandboxSegs at ht
      cases root with
      | nil => simp at ht
      | cons r rs =>
        have hlen := congrArg List.length ht
        simp at hlen
        omega
    simp [validate_file_path, hpre]

/-- Witness for `validate_file_path_sandbox`: a concrete `..` escape from a
concrete root is rejected with an "outside sandbox" error. -/
theorem validate_file_path_sandbox_witness :
    (sandboxSegs ["srv", "agent"]).isPrefixOf (resolvePath ["home"] "../etc/passwd") = false
    ∧ (validate_file_path ["srv", "agent"] ["home"] "../etc/passwd").1 = false
    ∧ ∃ err, (validate_file_path ["srv", "agent"] ["home"] "../etc/passwd").2 = some err ∧
        containsSub "outside sandbox".data err.data = true :=
  ⟨by decide,
   ((validate_file_path_sandbox ["srv", "agent"] ["home"] "../etc/passwd").2.1 (by decide)).1,
   ((validate_file_path_sandbox ["srv", "agent"] ["home"] "../etc/passwd").2.1 (by decide)).2⟩

/-- **C10.** A successful execution of `rag_node` (one where the grounding
check passes) appends exactly one record to `tool_calls`, whose name is
the literal `"rag"`, whose arguments are the query string and whose result
is the generated answer; the log is therefore non-empty afterwards — even
though `"rag"` is not a key of the tool registry. -/
theorem rag_node_appends_rag_record (o : RagOracle) (st : State)
    (h : (check_grounding_required st.query o.chunks).1 = true) :
    (rag_node o st).tool_calls =
      st.tool_calls ++ [{ name := "rag", arguments := Json.str st.query,
                          result := Json.str o.answer, timestamp := st.tool_calls.length }]
    ∧ (rag_node o st).tool_calls ≠ []
    ∧ ¬ ("rag" ∈ toolNames) := by
  refine ⟨?_, ?_, by decide⟩ <;> simp [rag_node, h]

/-- Witness for `rag_node_appends_rag_record` on a concrete retrieval. -/
theorem rag_node_appends_rag_record_witness :
    (check_grounding_required "q" [{ content := "c", source := "policy.md" }]).1 = true
    ∧ (rag_node { chunks := [{ content := "c", source := "policy.md" }], answer := "ans" }
        (build_initial_state "q")).tool_calls ≠ [] :=
  ⟨rfl, (rag_node_appends_rag_record
    { chunks := [{ content := "c", source := "policy.md" }], answer := "ans" }
    (build_initial_state "q") rfl).2.1⟩

/-! ### Structural facts about the nodes and the graph -/

/-- The grounding check returns exactly one of two shapes. -/
theorem check_grounding_cases (q : String) (cs : List Chunk) :
    check_grounding_required q cs = (true, none) ∨
    check_grounding_required q cs =
      (false, some "Query requires grounding but no documents retrieved") := by
  unfold check_grounding_required
  split_ifs <;> simp

/-- `guard_node` only touches `query` and `final_answer`. -/
theorem guard_node_fields (root cwd : List String) (st : State) :
    (guard_node root cwd st).retrieved_chunks = st.retrieved_chunks
    ∧ (guard_node root cwd st).citations = st.citations
    ∧ (guard_node root cwd st).tool_calls = st.tool_calls
    ∧ (guard_node root cwd st).iteration_count = st.iteration_count := by
  rcases hap : apply_guards root cwd st.query none none with ⟨p, msg, mq⟩
  simp only [guard_node, hap]
  split_ifs with h
  · rcases mq with _ | mq
    · simp
    · dsimp only
      split_ifs <;> simp
  · simp

/-- `finalize_node` only touches `final_answer` and `messages`. -/
theorem finalize_node_fields (st : State) :
    (finalize_node st).retrieved_chunks = st.retrieved_chunks
    ∧ (finalize_node st).citations = st.citations
    ∧ (finalize_node st).tool_calls = st.tool_calls
    ∧ (finalize_node st).iteration_count = st.iteration_count := by
  unfold finalize_node
  rcases st.final_answer with _ | fa
  · simp
  · dsimp only
    split_ifs <;> simp

/-- A successful `tool_node` run is the loop result folded into the state. -/
theorem tool_node_ok_shape (o : ToolOracle) (st st' : State)
    (h : tool_node o st = Except.ok st') :
    ∃ out, toolLoop o MAX_TOOL_HOPS 0 st.tool_calls = Except.ok out ∧
      st' = { st with
                tool_calls := out.log,
                final_answer := some (answerOf o st.query out),
                iteration_count := st.iteration_count + 1 } := by
  unfold tool_node at h
  cases hl : toolLoop o MAX_TOOL_HOPS 0 st.tool_calls with
  | error e => rw [hl] at h; cases h
  | ok out =>
    rw [hl] at h
    injection h with h
    exact ⟨out, rfl, h.symm⟩

/-- `rag_node` on a passed grounding check. -/
theorem rag_node_grounding_ok (o : RagOracle) (st : State)
    (h : (check_grounding_required st.query o.chunks).1 = true) :
    rag_node o st =
      { st with retrieved_chunks := o.chunks,
                final_answer := some o.answer,
                citations := (o.chunks.map Chunk.source).dedup,
                tool_calls := st.tool_calls ++
                  [{ name := "rag", arguments := Json.str st.query,
                     result := Json.str o.answer, timestamp := st.tool_calls.length }],
                iteration_count := st.iteration_count + 1 } := by
  simp [rag_node, h]

/-- `rag_node` on a failed grounding check. -/
theorem rag_node_grounding_fail (o : RagOracle) (st : State)
    (h : (check_grounding_required st.query o.chunks).1 = false) :
    rag_node o st =
      { st with final_answer := (check_grounding_required st.query o.chunks).2,
                retrieved_chunks := o.chunks, citations := [] } := by
  rcases check_grounding_cases st.query o.chunks with hg | hg
  · rw [hg] at h; cases h
  · simp [rag_node, hg, optTruthy]

/-- `rag_node` either increments the count (grounding passed) or leaves it
unchanged (grounding failed). -/
theorem rag_node_count_cases (o : RagOracle) (st : State) :
    (rag_node o st).iteration_count = st.iteration_count + 1
    ∨ (rag_node o st).iteration_count = st.iteration_count := by
  rcases check_grounding_cases st.query o.chunks with hg | hg
  · left
    rw [rag_node_grounding_ok o st (by rw [hg])]
  · right
    rw [rag_node_grounding_fail o st (by rw [hg])]

/-- No transition targets the `start` node. -/
theorem toGNode_ne_start (s : String) : toGNode s ≠ GNode.start := by
  unfold toGNode
  split_ifs <;> intro h <;> cases h

/-- Transitions never return to `start`. -/
theorem step_target_ne_start {root cwd : List String} {a b : GNode × State}
    (h : Step root cwd a b) : b.1 ≠ GNode.start := by
  cases h with
  | start st => intro h; cases h
  | guard st resp => exact toGNode_ne_start _
  | rag st o resp => exact toGNode_ne_start _
  | tool st st' o resp hok => exact toGNode_ne_start _
  | finalize st => intro h; cases h

/-- A configuration reachable from the start configuration that is still at
the `start` node is the start configuration itself. -/
theorem reaches_start_fixed {root cwd : List String} {s0 : State} {c : GNode × State}
    (h : Reaches root cwd (GNode.start, s0) c) (hc : c.1 = GNode.start) :
    c = (GNode.start, s0) := by
  induction h with
  | refl => rfl
  | tail hr hs ih => exact absurd hc (step_target_ne_start hs)

/-- Stepping out of a `start` configuration resets the count to zero. -/
theorem step_start_count {root cwd : List String} {st : State} {c : GNode × State}
    (h : Step root cwd (GNode.start, st) c) : c.2.iteration_count = 0 := by
  cases h with
  | start _ => rfl

/-- Transitions out of non-start configurations never decrease the count. -/
theorem step_count_mono {root cwd : List String} {a b : GNode × State}
    (h : Step root cwd a b) (ha : a.1 ≠ GNode.start) :
    a.2.iteration_count ≤ b.2.iteration_count := by
  cases h with
  | start st => exact absurd rfl ha
  | guard st resp => exact le_of_eq (guard_node_fields root cwd st).2.2.2.symm
  | rag st o resp =>
    dsimp only
    rcases rag_node_count_cases o st with hc | hc <;> omega
  | tool st st' o resp hok =>
    obtain ⟨out, _, rfl⟩ := tool_node_ok_shape o st st' hok
    exact Nat.le_succ _
  | finalize st => exact le_of_eq (finalize_node_fields st).2.2.2.symm

/-- Transitions preserve the citations invariant. -/
theorem step_preserves_citationsInv {root cwd : List String} {a b : GNode × State}
    (h : Step root cwd a b) (ha : citationsInv a.2) : citationsInv b.2 := by
  cases h with
  | start st =>
    intro x hx
    simp [initial_node, build_initial_state] at hx
  | guard st resp =>
    intro x hx
    rw [(guard_node_fields root cwd st).2.1] at hx
    rw [(guard_node_fields root cwd st).1]
    exact ha x hx
  | rag st o resp =>
    intro x hx
    rcases check_grounding_cases st.query o.chunks with hg | hg
    · rw [rag_node_grounding_ok o st (by rw [hg])] at hx ⊢
      simp only [List.mem_dedup] at hx
      exact hx
    · rw [rag_node_grounding_fail o st (by rw [hg])] at hx
      simp at hx
  | tool st st' o resp hok =>
    obtain ⟨out, _, rfl⟩ := tool_node_ok_shape o st st' hok
    exact ha
  | finalize st =>
    intro x hx
    rw [(finalize_node_fields st).2.1] at hx
    rw [(finalize_node_fields st).1]
    exact ha x hx

/-- **C6 (corrected, counterexample part).** A retrieval execution that
fails the grounding check (no chunks retrieved, factual query) does *not*
increment `iteration_count`: the claimed unconditional increment is false. -/
theorem rag_node_grounding_failure_keeps_count :
    (rag_node { chunks := [], answer := "a" }
        (build_initial_state "What is the policy?")).iteration_count
      = (build_initial_state "What is the policy?").iteration_count
    ∧ ¬ ((rag_node { chunks := [], answer := "a" }
        (build_initial_state "What is the policy?")).iteration_count
      = (build_initial_state "What is the policy?").iteration_count + 1) := by
  constructor
  · rfl
  · intro h
    exact absurd h (by decide)

/-- **C6 (amended).** Within a run `iteration_count` never decreases; a
*successful* retrieval execution and every tool-loop execution increment
it by exactly one, while a retrieval execution that fails the grounding
check leaves it unchanged. -/
theorem iteration_count_behaviour :
    (∀ (root cwd : List String) (q : String) (c1 c2 : GNode × State),
        Reaches root cwd (GNode.start, build_initial_state q) c1 →
        Reaches root cwd c1 c2 →
        c1.2.iteration_count ≤ c2.2.iteration_count)
    ∧ (∀ (o : RagOracle) (st : State),
        (check_grounding_required st.query o.chunks).1 = true →
        (rag_node o st).iteration_count = st.iteration_count + 1)
    ∧ (∀ (o : RagOracle) (st : State),
        (check_grounding_required st.query o.chunks).1 = false →
        (rag_node o st).iteration_count = st.iteration_count)
    ∧ (∀ (o : ToolOracle) (st st' : State), tool_node o st = Except.ok st' →
        st'.iteration_count = st.iteration_count + 1) := by
  refine ⟨?_, ?_, ?_, ?_⟩
  · intro root cwd q c1 c2 h1 h2
    induction h2 with
    | refl => exact le_refl _
    | tail hrb hstep ih =>
      rename_i b c
      by_cases hb : b.1 = GNode.start
      · have hbfix := reaches_start_fixed (Relation.ReflTransGen.trans h1 hrb) hb
        have h0 : b.2.iteration_count = 0 := by rw [hbfix]; rfl
        have hc0 : c.2.iteration_count = 0 := by
          rw [hbfix] at hstep
          exact step_start_count hstep
        omega
      · exact le_trans ih (step_count_mono hstep hb)
  · intro o st h
    rw [rag_node_grounding_ok o st h]
  · intro o st h
    rw [rag_node_grounding_fail o st h]
  · intro o st st' h
    obtain ⟨out, _, rfl⟩ := tool_node_ok_shape o st st' h
    rfl

/-- Witness for `iteration_count_behaviour`: a concrete tool-node run
increments the count from 0 to 1. -/
theorem iteration_count_behaviour_witness :
    tool_node textOracle (build_initial_state "q") =
      Except.ok { build_initial_state "q" with final_answer := some "done", iteration_count := 1 }
    ∧ ({ build_initial_state "q" with final_answer := some "done", iteration_count := 1 } : State).iteration_count
      = (build_initial_state "q").iteration_count + 1 :=
  ⟨rfl, iteration_count_behaviour.2.2.2 textOracle (build_initial_state "q") _ rfl⟩

/-- **C8.** At every reachable configuration of a run, `citations` is a
subset of the sources of the currently retrieved chunks, and whenever no
chunks have been retrieved `citations` is empty. -/
theorem citations_subset_of_sources (root cwd : List String) (q : String)
    (c : GNode × State) (h : Reaches root cwd (GNode.start, build_initial_state q) c) :
    citationsInv c.2 ∧ (c.2.retrieved_chunks = [] → c.2.citations = []) := by
  have inv : citationsInv c.2 := by
    induction h with
    | refl =>
      intro x hx
      simp [build_initial_state] at hx
    | tail hr hs ih => exact step_preserves_citationsInv hs ih
  refine ⟨inv, fun hemp => ?_⟩
  cases hcit : c.2.citations with
  | nil => rfl
  | cons a as =>
    have hmem := inv a (by rw [hcit]; exact List.mem_cons_self a as)
    rw [hemp] at hmem
    simp at hmem

/-- Valid names make `execCalls` succeed. -/
theorem execCalls_ok_of_valid (o : ToolOracle) (calls : List ProposedCall) (log : List ToolCall)
    (h : ∀ c ∈ calls, c.name ∈ toolNames) :
    ∃ log', execCalls o calls log = Except.ok log' := by
  induction calls generalizing log with
  | nil => exact ⟨log, rfl⟩
  | cons c cs ih =>
    have hc : c.name ∈ toolNames := h c (List.mem_cons_self _ _)
    have hcs : ∀ d ∈ cs, d.name ∈ toolNames := fun d hd => h d (List.mem_cons_of_mem _ hd)
    unfold execCalls
    rw [if_pos hc]
    cases o.impl c.name c.arguments with
    | ok v => exact ih _ hcs
    | error e => exact ih _ hcs

/-- Valid names make the bounded loop succeed, within the hop budget. -/
theorem toolLoop_ok_of_valid (o : ToolOracle)
    (h : ∀ hop, ∀ c ∈ (o.resp hop).toolCalls, c.name ∈ toolNames) :
    ∀ fuel hop log, ∃ out, toolLoop o fuel hop log = Except.ok out ∧ out.hops ≤ fuel := by
  intro fuel
  induction fuel with
  | zero => exact fun hop log => ⟨_, rfl, le_refl _⟩
  | succ n ih =>
    intro hop log
    unfold toolLoop
    by_cases he : (o.resp hop).toolCalls.isEmpty
    · rw [if_pos he]
      refine ⟨_, rfl, ?_⟩
      simp only
      omega
    · rw [if_neg he]
      obtain ⟨log1, hlog1⟩ := execCalls_ok_of_valid o _ log (h hop)
      obtain ⟨out, hout, hle⟩ := ih (hop + 1) log1
      rw [hlog1]
      dsimp only
      rw [hout]
      refine ⟨_, rfl, ?_⟩
      simp only
      omega

/-- **C2 (corrected, counterexample part).** For the completion behaviour
that proposes an unregistered tool name, `tool_node` raises an uncaught
`KeyError` (the registry lookup `tools[tool_name]` sits outside the
`try`), so it does not terminate with `final_answer` set. -/
theorem tool_node_unknown_tool_raises :
    tool_node badOracle (build_initial_state "q") = Except.error "KeyError: bogus"
    ∧ ∀ st', tool_node badOracle (build_initial_state "q") ≠ Except.ok st' := by
  refine ⟨rfl, fun st' h => ?_⟩
  rw [(rfl : tool_node badOracle (build_initial_state "q") = Except.error "KeyError: bogus")] at h
  cases h

/-- **C2 (amended).** For every completion-service behaviour whose
proposed invocations all carry registered tool names, the loop makes at
most `MAX_TOOL_HOPS` completion calls and `tool_node` terminates with
`final_answer` set; when no hop produced a truthy textual answer, the
answer is synthesized from the full updated `tool_calls` log and the
original query. -/
theorem tool_node_bounded_and_answers (o : ToolOracle) (st : State)
    (h : ∀ hop, ∀ c ∈ (o.resp hop).toolCalls, c.name ∈ toolNames) :
    ∃ out st', toolLoop o MAX_TOOL_HOPS 0 st.tool_calls = Except.ok out
      ∧ out.hops ≤ MAX_TOOL_HOPS
      ∧ tool_node o st = Except.ok st'
      ∧ st'.final_answer = some (answerOf o st.query out)
      ∧ ((out.answer = none ∨ out.answer = some "") →
          st'.final_answer = some (o.histAnswer st.query out.log))
      ∧ st'.iteration_count = st.iteration_count + 1 := by
  obtain ⟨out, hout, hle⟩ := toolLoop_ok_of_valid o h MAX_TOOL_HOPS 0 st.tool_calls
  have htool : tool_node o st = Except.ok
      { st with
          tool_calls := out.log,
          final_answer := some (answerOf o st.query out),
          iteration_count := st.iteration_count + 1 } := by
    unfold tool_node
    rw [hout]
  refine ⟨out, _, hout, hle, htool, rfl, ?_, rfl⟩
  rintro (hnone | hempty)
  · simp [answerOf, hnone]
  · simp [answerOf, hempty]

/-- Witness for `tool_node_bounded_and_answers` on a behaviour that
answers in text immediately. -/
theorem tool_node_bounded_and_answers_witness :
    ∃ out st', toolLoop textOracle MAX_TOOL_HOPS 0 (build_initial_state "q").tool_calls = Except.ok out
      ∧ out.hops ≤ MAX_TOOL_HOPS
      ∧ tool_node textOracle (build_initial_state "q") = Except.ok st'
      ∧ st'.final_answer = some (answerOf textOracle "q" out)
      ∧ st'.iteration_count = (build_initial_state "q").iteration_count + 1 := by
  obtain ⟨out, st', h1, h2, h3, h4, _, h6⟩ :=
    tool_node_bounded_and_answers textOracle (build_initial_state "q")
      (fun hop c hmem => by simp [textOracle] at hmem)
  exact ⟨out, st', h1, h2, h3, h4, h6⟩

/-- **C1 (corrected, counterexample part).** Under the behaviour that
proposes the identical `safe_calculate` invocation at every hop, the
second and third identical invocations *are* executed and recorded — no
duplicate detection aborts the batch or exits the loop — and the run ends
by hop exhaustion with a synthesized answer. -/
theorem tool_node_executes_duplicates :
    tool_node dupOracle (build_initial_state "Calculate 2 + 2") =
      Except.ok { query := "Calculate 2 + 2", retrieved_chunks := [],
                  final_answer := some "synthesized", citations := [], messages := [],
                  tool_calls :=
                    [{ name := "safe_calculate", arguments := dupArgs,
                       result := Json.num 4, timestamp := 0 },
                     { name := "safe_calculate", arguments := dupArgs,
                       result := Json.num 4, timestamp := 1 },
                     { name := "safe_calculate", arguments := dupArgs,
                       result := Json.num 4, timestamp := 2 }],
                  iteration_count := 1 } := rfl

/-- **C1 (amended).** The tool loop performs no duplicate detection: every
proposed invocation whose name is registered is executed and appended to
`tool_calls`, in order, regardless of any identical prior record in the
log. -/
theorem execCalls_appends_every_call (o : ToolOracle) (calls : List ProposedCall)
    (log : List ToolCall) (h : ∀ c ∈ calls, c.name ∈ toolNames) :
    ∃ recs, execCalls o calls log = Except.ok (log ++ recs)
      ∧ List.Forall₂ (fun (c : ProposedCall) (r : ToolCall) =>
            r.name = c.name ∧ r.arguments = c.arguments) calls recs := by
  induction calls generalizing log with
  | nil => exact ⟨[], by simp [execCalls], List.Forall₂.nil⟩
  | cons c cs ih =>
    have hc : c.name ∈ toolNames := h c (List.mem_cons_self _ _)
    have hcs : ∀ d ∈ cs, d.name ∈ toolNames := fun d hd => h d (List.mem_cons_of_mem _ hd)
    unfold execCalls
    rw [if_pos hc]
    cases himpl : o.impl c.name c.arguments with
    | ok v =>
      obtain ⟨recs, hexec, hall⟩ := ih (log ++ [⟨c.name, c.arguments, v, log.length⟩]) hcs
      refine ⟨⟨c.name, c.arguments, v, log.length⟩ :: recs, ?_, List.Forall₂.cons ⟨rfl, rfl⟩ hall⟩
      dsimp only
      rw [hexec]
      simp
    | error e =>
      obtain ⟨recs, hexec, hall⟩ :=
        ih (log ++ [⟨c.name, c.arguments, Json.str ("Error: " ++ e), log.length⟩]) hcs
      refine ⟨⟨c.name, c.arguments, Json.str ("Error: " ++ e), log.length⟩ :: recs, ?_,
        List.Forall₂.cons ⟨rfl, rfl⟩ hall⟩
      dsimp only
      rw [hexec]
      simp

/-- Witness for `execCalls_appends_every_call`: a proposed invocation
identical to a record already in the log is still executed and appended. -/
theorem execCalls_appends_every_call_witness :
    ∃ recs, execCalls dupOracle [{ name := "safe_calculate", arguments := dupArgs }]
        [{ name := "safe_calculate", arguments := dupArgs, result := Json.num 4, timestamp := 0 }]
      = Except.ok
          ([{ name := "safe_calculate", arguments := dupArgs, result := Json.num 4, timestamp := 0 }]
            ++ recs)
      ∧ List.Forall₂ (fun (c : ProposedCall) (r : ToolCall) =>
            r.name = c.name ∧ r.arguments = c.arguments)
          [{ name := "safe_calculate", arguments := dupArgs }] recs :=
  execCalls_appends_every_call dupOracle
    [{ name := "safe_calculate", arguments := dupArgs }]
    [{ name := "safe_calculate", arguments := dupArgs, result := Json.num 4, timestamp := 0 }]
    (by
      intro c hc
      rw [List.mem_singleton] at hc
      subst hc
      decide)

/-- Witness for `citations_subset_of_sources` at the start configuration. -/
theorem citations_subset_of_sources_witness :
    citationsInv (build_initial_state "q")
    ∧ (build_initial_state "q").citations = [] :=
  ⟨(citations_subset_of_sources [] [] "q" (GNode.start, build_initial_state "q")
      Relation.ReflTransGen.refl).1,
   (citations_subset_of_sources [] [] "q" (GNode.start, build_initial_state "q")
      Relation.ReflTransGen.refl).2 rfl⟩

/-! ### The refusal path -/

/-- A substitution pass on a string without matches is the identity. -/
theorem subAux_no_match (m : Matcher) (repl : List Char) :
    ∀ (prev : Option Char) (s : List Char),
      hasMatchAux m prev s = false → subAux m repl prev s = s := by
  intro prev s
  induction s generalizing prev with
  | nil => intro _; simp [subAux]
  | cons c rest ih =>
    intro h
    unfold hasMatchAux at h
    simp only [Bool.or_eq_false_iff] at h
    obtain ⟨h1, h2⟩ := h
    rw [Bool.eq_false_iff, Ne] at h1
    rw [Option.not_isSome_iff_eq_none] at h1
    unfold subAux
    rw [h1]
    rw [ih (some c) h2]

/-- `mask_pii` fixes any string free of all four patterns. -/
theorem mask_pii_of_no_match (s : List Char)
    (he : hasMatch emailTry s = false) (hs : hasMatch ssnTry s = false)
    (hp : hasMatch phoneTry s = false) (hc : hasMatch ccTry s = false) :
    mask_pii s = s := by
  unfold mask_pii reSub
  rw [subAux_no_match _ _ _ _ he, subAux_no_match _ _ _ _ hs,
      subAux_no_match _ _ _ _ hp, subAux_no_match _ _ _ _ hc]

/-- `maskPiiStr` fixes any string free of all four patterns. -/
theorem maskPiiStr_of_no_match (s : String)
    (he : hasMatch emailTry s.data = false) (hs : hasMatch ssnTry s.data = false)
    (hp : hasMatch phoneTry s.data = false) (hc : hasMatch ccTry s.data = false) :
    maskPiiStr s = s := by
  unfold maskPiiStr
  rw [mask_pii_of_no_match s.data he hs hp hc]

/-- A refusal category returned by the pattern check is one of the four
configured categories. -/
theorem check_refuse_patterns_mem (q cat : String)
    (h : check_refuse_patterns q = some cat) :
    cat = "legal" ∨ cat = "medical" ∨ cat = "financial" ∨ cat = "document_generation" := by
  unfold check_refuse_patterns at h
  rcases hf : refusePatterns.find? (fun p => p.1.any (matchesPiece (toLowerL q.data))) with _ | p
  · rw [hf] at h
    cases h
  · rw [hf] at h
    injection h with h
    have hmem := List.mem_of_find?_eq_some hf
    subst h
    simp only [refusePatterns, List.mem_cons, List.not_mem_nil, or_false] at hmem
    rcases hmem with rfl | rfl | rfl | rfl <;> simp

/-- `guard_node` on a query hitting a refusal pattern stores the templated
message and leaves every other field (including the query) unchanged. -/
theorem guard_node_of_refusal (root cwd : List String) (st : State) (cat : String)
    (h : check_refuse_patterns st.query = some cat) :
    guard_node root cwd st = { st with final_answer := some (create_refusal_response cat) } := by
  unfold guard_node apply_guards
  rw [h]
  simp

/-- `finalize_node` on a truthy final answer masks it and appends the
assistant message. -/
theorem finalize_node_truthy (st : State) (fa : String) (hfa : st.final_answer = some fa)
    (hne : fa ≠ "") :
    finalize_node st =
      { st with
          final_answer := some (maskPiiStr fa),
          messages := st.messages ++ [{ role := "assistant", content := maskPiiStr fa }] } := by
  unfold finalize_node
  rw [hfa]
  simp [hne]

/-- Refusal templates contain no PII pattern, so masking fixes them. -/
theorem mask_refusal_template_fixed (cat : String)
    (hcat : cat = "legal" ∨ cat = "medical" ∨ cat = "financial" ∨ cat = "document_generation") :
    maskPiiStr (create_refusal_response cat) = create_refusal_response cat := by
  rcases hcat with rfl | rfl | rfl | rfl <;>
    exact maskPiiStr_of_no_match _ (by decide) (by decide) (by decide) (by decide)

/-- Refusal templates are truthy even after stripping. -/
theorem strip_refusal_template (cat : String)
    (hcat : cat = "legal" ∨ cat = "medical" ∨ cat = "financial" ∨ cat = "document_generation") :
    stripTruthy (some (create_refusal_response cat)) = true := by
  rcases hcat with rfl | rfl | rfl | rfl <;> decide

/-- **C4.** A query matching a refusal pattern short-circuits from the
guard directly to finalize: along every run on such a query the retrieval
and tool nodes are never entered, `tool_calls` stays empty, and the
terminal state's `final_answer` is exactly the matched category's
templated refusal message, which contains "cannot" and — for the legal
category — "legal" or "attorney". -/
theorem refusal_short_circuits (root cwd : List String) (q cat : String)
    (h : check_refuse_patterns q = some cat) (c : GNode × State)
    (hr : Reaches root cwd (GNode.start, build_initial_state q) c) :
    (c.1 ≠ GNode.rag ∧ c.1 ≠ GNode.tool) ∧ c.2.tool_calls = [] ∧
    (c.1 = GNode.terminal →
      c.2.final_answer = some (create_refusal_response cat)
      ∧ containsSub "cannot".data (create_refusal_response cat).data = true
      ∧ (cat = "legal" →
          containsSub "legal".data (create_refusal_response cat).data = true
          ∨ containsSub "attorney".data (create_refusal_response cat).data = true)) := by
  have hcat := check_refuse_patterns_mem q cat h
  have hguard : guard_node root cwd (build_initial_state q) =
      { build_initial_state q with final_answer := some (create_refusal_response cat) } :=
    guard_node_of_refusal root cwd (build_initial_state q) cat h
  have hne : create_refusal_response cat ≠ "" := by
    rcases hcat with rfl | rfl | rfl | rfl <;> decide
  have hchar : ∀ c', Reaches root cwd (GNode.start, build_initial_state q) c' →
      c' = (GNode.start, build_initial_state q)
      ∨ c' = (GNode.guard, build_initial_state q)
      ∨ c' = (GNode.finalize,
          { build_initial_state q with final_answer := some (create_refusal_response cat) })
      ∨ c' = (GNode.terminal, finalize_node
          { build_initial_state q with final_answer := some (create_refusal_response cat) }) := by
    intro c' hc'
    induction hc' with
    | refl => exact Or.inl rfl
    | tail hr' hs ih =>
      rcases ih with rfl | rfl | rfl | rfl
      · cases hs with
        | start _ => exact Or.inr (Or.inl rfl)
      · cases hs with
        | guard _ resp =>
          refine Or.inr (Or.inr (Or.inl ?_))
          rw [hguard]
          have hrt : guard_router resp
              { build_initial_state q with
                  final_answer := some (create_refusal_response cat) } = "finalize" := by
            unfold guard_router
            rw [strip_refusal_template cat hcat]
            rfl
          rw [hrt]
          rfl
      · cases hs with
        | finalize _ => exact Or.inr (Or.inr (Or.inr rfl))
      · cases hs
  rcases hchar c hr with rfl | rfl | rfl | rfl
  · exact ⟨by simp, rfl, fun hterm => by cases hterm⟩
  · exact ⟨by simp, rfl, fun hterm => by cases hterm⟩
  · exact ⟨by simp, rfl, fun hterm => by cases hterm⟩
  · refine ⟨by simp, ?_, fun _ => ⟨?_, ?_, ?_⟩⟩
    · exact (finalize_node_fields _).2.2.1
    · show (finalize_node _).final_answer = _
      rw [finalize_node_truthy _ (create_refusal_response cat) rfl hne]
      rw [mask_refusal_template_fixed cat hcat]
    · rcases hcat with rfl | rfl | rfl | rfl <;> decide
    · intro hleg
      subst hleg
      right
      decide

/-- Witness for `refusal_short_circuits`: the scenario-C query reaches the
terminal configuration with the legal refusal template and no tool calls. -/
theorem refusal_short_circuits_witness :
    check_refuse_patterns refusalQuery = some "legal"
    ∧ (finalize_node (guard_node [] [] (build_initial_state refusalQuery))).tool_calls = []
    ∧ (finalize_node (guard_node [] [] (build_initial_state refusalQuery))).final_answer
        = some (create_refusal_response "legal") := by
  have hq : check_refuse_patterns refusalQuery = some "legal" := by decide
  have hstep1 : Step [] [] (GNode.start, build_initial_state refusalQuery)
      (GNode.guard, build_initial_state refusalQuery) := Step.start _
  have hguard : guard_node [] [] (build_initial_state refusalQuery) =
      { build_initial_state refusalQuery with
          final_answer := some (create_refusal_response "legal") } :=
    guard_node_of_refusal [] [] (build_initial_state refusalQuery) "legal" hq
  have hstep2 : Step [] [] (GNode.guard, build_initial_state refusalQuery)
      (GNode.finalize, guard_node [] [] (build_initial_state refusalQuery)) := by
    have hs : Step [] [] (GNode.guard, build_initial_state refusalQuery)
        (toGNode (guard_router "x" (guard_node [] [] (build_initial_state refusalQuery))),
          guard_node [] [] (build_initial_state refusalQuery)) :=
      Step.guard (build_initial_state refusalQuery) "x"
    have hrt : guard_router "x" (guard_node [] [] (build_initial_state refusalQuery)) = "finalize" := by
      rw [hguard]
      unfold guard_router
      rw [strip_refusal_template "legal" (Or.inl rfl)]
      rfl
    rw [hrt] at hs
    exact hs
  have hstep3 : Step [] [] (GNode.finalize, guard_node [] [] (build_initial_state refusalQuery))
      (GNode.terminal, finalize_node (guard_node [] [] (build_initial_state refusalQuery))) :=
    Step.finalize _
  have hreach : Reaches [] [] (GNode.start, build_initial_state refusalQuery)
      (GNode.terminal, finalize_node (guard_node [] [] (build_initial_state refusalQuery))) :=
    Relation.ReflTransGen.tail
      (Relation.ReflTransGen.tail
        (Relation.ReflTransGen.tail Relation.ReflTransGen.refl hstep1) hstep2) hstep3
  have hmain := refusal_short_circuits [] [] refusalQuery "legal" hq _ hreach
  exact ⟨hq, hmain.2.1, (hmain.2.2 rfl).1⟩

/-! ### Support lemmas for the no-PII-match development

The goal of the remainder of the file is that the output of `mask_pii`
contains no match of any of the four PII patterns (and hence that
`mask_pii` is idempotent).  The proof analyses each `re.sub` pass: a match
of the checked pattern in the output would have to lie inside a block of
untouched context characters, and the word boundaries at the edges of the
replacements transport it back to a match in the input. -/

theorem prevAfter_append (pr : Option Char) (a b : List Char) :
    prevAfter pr (a ++ b) = prevAfter (prevAfter pr a) b := by
  induction a generalizing pr with
  | nil => rfl
  | cons c rest ih => exact ih (some c)

theorem prevAfter_ne_nil (pr : Option Char) (a : List Char) (h : a ≠ []) :
    prevAfter pr a = a.getLast? := by
  induction a generalizing pr with
  | nil => exact absurd rfl h
  | cons c rest ih =>
    cases rest with
    | nil => rfl
    | cons d ds =>
      rw [List.getLast?_cons_cons]
      exact ih (some c) (by simp)

theorem prevAfter_take (pr : Option Char) (s : List Char) (n : Nat)
    (h1 : 1 ≤ n) (h2 : n ≤ s.length) :
    prevAfter pr (s.take n) = s.get? (n - 1) := by
  induction n generalizing s pr with
  | zero => omega
  | succ k ih =>
    cases s with
    | nil => exact absurd h2 (by simp)
    | cons c rest =>
      cases k with
      | zero => rfl
      | succ j =>
        have := ih (some c) rest (by omega) (by simpa using h2)
        exact this

theorem hasMatchAux_suffix (m : Matcher) (a : List Char) :
    ∀ (pr : Option Char) (b : List Char),
      hasMatchAux m pr (a ++ b) = false → hasMatchAux m (prevAfter pr a) b = false := by
  induction a with
  | nil => exact fun pr b h => h
  | cons c rest ih =>
    intro pr b h
    have h' : ((m pr ((c :: rest) ++ b)).isSome || hasMatchAux m (some c) (rest ++ b)) = false := h
    simp only [Bool.or_eq_false_iff] at h'
    exact ih (some c) b h'.2

theorem hasMatchAux_head (m : Matcher) (pr : Option Char) (c : Char) (rest : List Char)
    (h : hasMatchAux m pr (c :: rest) = false) :
    m pr (c :: rest) = none ∧ hasMatchAux m (some c) rest = false := by
  unfold hasMatchAux at h
  simp only [Bool.or_eq_false_iff] at h
  refine ⟨?_, h.2⟩
  have := h.1
  rw [Bool.eq_false_iff, Ne] at this
  rwa [Option.not_isSome_iff_eq_none] at this

theorem hasMatchAux_cross (p : Matcher) (a : List Char)
    (hfail : ∀ (pr' : Option Char) (i : Nat) (z : List Char),
      i < a.length → p pr' (a.drop i ++ z) = none) :
    ∀ (pr : Option Char) (z : List Char),
      hasMatchAux p pr (a ++ z) = hasMatchAux p (prevAfter pr a) z := by
  induction a with
  | nil => intro pr z; rfl
  | cons c rest ih =>
    intro pr z
    have h0 : p pr ((c :: rest) ++ z) = none := by
      have := hfail pr 0 z (by simp)
      simpa using this
    have hstep : hasMatchAux p pr ((c :: rest) ++ z)
        = ((p pr ((c :: rest) ++ z)).isSome || hasMatchAux p (some c) (rest ++ z)) := rfl
    rw [hstep, h0]
    simp only [Option.isSome_none, Bool.false_or]
    exact ih (fun pr' i z' hi => by
      have := hfail pr' (i + 1) z' (by simpa using Nat.succ_lt_succ hi)
      simpa using this) (some c) z

theorem dropDigits_iff (k : Nat) : ∀ (s r : List Char),
    dropDigits k s = some r ↔
      (∀ i, i < k → ∃ c, s.get? i = some c ∧ c.isDigit = true) ∧ r = s.drop k := by
  induction k with
  | zero =>
    intro s r
    constructor
    · intro h
      injection h with h
      exact ⟨fun i hi => absurd hi (by omega), by simp [h]⟩
    · rintro ⟨_, rfl⟩
      simp [dropDigits]
  | succ k ih =>
    intro s r
    cases s with
    | nil =>
      simp only [dropDigits]
      constructor
      · intro h; cases h
      · rintro ⟨h, _⟩
        obtain ⟨c, hc, _⟩ := h 0 (by omega)
        cases hc
    | cons c cs =>
      show (if c.isDigit then dropDigits k cs else none) = some r ↔ _
      by_cases hd : c.isDigit
      · rw [if_pos hd, ih]
        constructor
        · rintro ⟨h1, h2⟩
          refine ⟨?_, by simpa using h2⟩
          intro i hi
          cases i with
          | zero => exact ⟨c, rfl, hd⟩
          | succ j => exact h1 j (by omega)
        · rintro ⟨h1, h2⟩
          exact ⟨fun j hj => h1 (j + 1) (by omega), by simpa using h2⟩
      · rw [if_neg hd]
        constructor
        · intro h; cases h
        · rintro ⟨h1, _⟩
          obtain ⟨c', hc', hdig⟩ := h1 0 (by omega)
          cases hc'
          exact absurd hdig (by simpa using hd)

theorem drop_cons_of_get? (s : List Char) (a : Nat) (x : Char)
    (h : s.get? a = some x) : s.drop a = x :: s.drop (a + 1) := by
  induction s generalizing a with
  | nil => cases h
  | cons c cs ih =>
    cases a with
    | zero =>
      cases h
      rfl
    | succ b =>
      have := ih b h
      simpa using this

theorem dropDigits_drop (a k : Nat) (s : List Char)
    (h : ∀ i, i < k → ∃ c, s.get? (a + i) = some c ∧ c.isDigit = true) :
    dropDigits k (s.drop a) = some (s.drop (a + k)) := by
  rw [dropDigits_iff]
  constructor
  · intro i hi
    obtain ⟨c, hc, hd⟩ := h i hi
    exact ⟨c, by rw [List.get?_drop]; exact hc, hd⟩
  · rw [List.drop_drop, Nat.add_comm]

theorem drop_head_wordB (s : List Char) (a : Nat) :
    wordB ((s.drop a).head?) = wordB (s.get? a) := by
  have h1 : (s.drop a).head? = (s.drop a).get? 0 := by
    cases hh : s.drop a <;> simp
  rw [h1, List.get?_drop, Nat.add_zero]

/-- Characterization of the SSN matcher in positionwise form. -/
theorem ssnTry_char (pr : Option Char) (s : List Char) (n : Nat) :
    ssnTry pr s = some n ↔
      n = 11 ∧ wordB pr = false ∧ matchesSpec specSSN s ∧ wordB (s.get? 11) = false := by
  constructor
  · intro h
    unfold ssnTry at h
    split_ifs at h with hw
    split at h
    case _ s1 heq3 =>
      split at h
      case _ s2 heq2 =>
        split at h
        case _ rest heq4 =>
          split_ifs at h with htr
          rw [Bool.not_eq_true] at htr
          injection h with h
          obtain ⟨hd3, hr3⟩ := (dropDigits_iff 3 s _).1 heq3
          have hget3 : s.get? 3 = some '-' := by
            have : (s.drop 3).get? 0 = s.get? 3 := by rw [List.get?_drop]
            rw [← hr3] at this
            exact this.symm
          have hs1 : s1 = s.drop 4 := by
            simpa using hr3.trans (drop_cons_of_get? s 3 '-' hget3)
          subst hs1
          obtain ⟨hd2, hr2⟩ := (dropDigits_iff 2 (s.drop 4) _).1 heq2
          have hr2' : ('-' :: s2) = s.drop 6 := by
            rw [hr2, List.drop_drop]
          have hget6 : s.get? 6 = some '-' := by
            have : (s.drop 6).get? 0 = s.get? 6 := by rw [List.get?_drop]
            rw [← hr2'] at this
            exact this.symm
          have hs2 : s2 = s.drop 7 := by
            simpa using hr2'.trans (drop_cons_of_get? s 6 '-' hget6)
          subst hs2
          obtain ⟨hd4, hr4⟩ := (dropDigits_iff 4 (s.drop 7) _).1 heq4
          have hrest : rest = s.drop 11 := by
            rw [hr4, List.drop_drop]
          subst hrest
          rw [Bool.not_eq_true] at hw
          refine ⟨h.symm, hw, ?_, by rwa [drop_head_wordB] at htr⟩
          intro i q hq
          have hlen : i < specSSN.length := by
            by_contra hcon
            rw [List.get?_eq_none.2 (by omega)] at hq
            cases hq
          have hlen11 : i < 11 := by simpa [specSSN] using hlen
          have hdig : ∀ j, j < 3 → ∃ c, s.get? j = some c ∧ c.isDigit = true := hd3
          have hdig2 : ∀ j, j < 2 → ∃ c, s.get? (4 + j) = some c ∧ c.isDigit = true := by
            intro j hj
            obtain ⟨c, hc, hd⟩ := hd2 j hj
            rw [List.get?_drop] at hc
            exact ⟨c, hc, hd⟩
          have hdig4 : ∀ j, j < 4 → ∃ c, s.get? (7 + j) = some c ∧ c.isDigit = true := by
            intro j hj
            obtain ⟨c, hc, hd⟩ := hd4 j hj
            rw [List.get?_drop] at hc
            exact ⟨c, hc, hd⟩
          interval_cases i
          · injection hq with hq; subst hq; exact hdig 0 (by omega)
          · injection hq with hq; subst hq; exact hdig 1 (by omega)
          · injection hq with hq; subst hq; exact hdig 2 (by omega)
          · injection hq with hq; subst hq; exact ⟨'-', hget3, by decide⟩
          · injection hq with hq; subst hq; exact hdig2 0 (by omega)
          · injection hq with hq; subst hq; exact hdig2 1 (by omega)
          · injection hq with hq; subst hq; exact ⟨'-', hget6, by decide⟩
          · injection hq with hq; subst hq; exact hdig4 0 (by omega)
          · injection hq with hq; subst hq; exact hdig4 1 (by omega)
          · injection hq with hq; subst hq; exact hdig4 2 (by omega)
          · injection hq with hq; subst hq; exact hdig4 3 (by omega)
        · cases h
      · cases h
    · cases h
  · rintro ⟨rfl, hw, hms, htr⟩
    have hat : ∀ i, i < 11 → i ≠ 3 → i ≠ 6 → ∃ c, s.get? i = some c ∧ c.isDigit = true := by
      intro i hi h3 h6
      interval_cases i <;> first
        | exact hms 0 _ rfl | exact hms 1 _ rfl | exact hms 2 _ rfl
        | exact hms 4 _ rfl | exact hms 5 _ rfl | exact hms 7 _ rfl
        | exact hms 8 _ rfl | exact hms 9 _ rfl | exact hms 10 _ rfl
        | omega
    have h3 : s.get? 3 = some '-' := by
      obtain ⟨c, hc, hb⟩ := hms 3 _ rfl
      rw [beq_iff_eq] at hb
      rwa [hb] at hc
    have h6 : s.get? 6 = some '-' := by
      obtain ⟨c, hc, hb⟩ := hms 6 _ rfl
      rw [beq_iff_eq] at hb
      rwa [hb] at hc
    have e3 : dropDigits 3 s = some ('-' :: s.drop 4) := by
      have := dropDigits_drop 0 3 s (by intro i hi; simpa using hat i (by omega) (by omega) (by omega))
      rw [List.drop_zero] at this
      rw [this, drop_cons_of_get? s 3 '-' h3]
    have e2 : dropDigits 2 (s.drop 4) = some ('-' :: s.drop 7) := by
      have := dropDigits_drop 4 2 s (by intro i hi; exact hat (4 + i) (by omega) (by omega) (by omega))
      rw [this, drop_cons_of_get? s 6 '-' h6]
    have e4 : dropDigits 4 (s.drop 7) = some (s.drop 11) := by
      exact dropDigits_drop 7 4 s (by intro i hi; exact hat (7 + i) (by omega) (by omega) (by omega))
    unfold ssnTry
    rw [if_neg (by simp [hw])]
    split
    case _ s1 heq =>
      have hs1 : s1 = s.drop 4 := by simpa using heq.symm.trans e3
      subst hs1
      split
      case _ s2 heq2 =>
        have hs2 : s2 = s.drop 7 := by simpa using heq2.symm.trans e2
        subst hs2
        split
        case _ rest heq4 =>
          have hrest : rest = s.drop 11 := by simpa using heq4.symm.trans e4
          subst hrest
          have hfalse : wordB ((s.drop 11).head?) = false := by
            rw [drop_head_wordB]
            exact htr
          rw [hfalse]
          simp
        case _ heq4 =>
          rw [e4] at heq4
          cases heq4
      case _ heq2 =>
        exact absurd e2 (by intro hcon; exact heq2 (s.drop 7) hcon)
    case _ heq =>
      exact absurd e3 (by intro hcon; exact heq (s.drop 4) hcon)

/-- Characterization of the phone matcher in positionwise form. -/
theorem phoneTry_char (pr : Option Char) (s : List Char) (n : Nat) :
    phoneTry pr s = some n ↔
      n = 12 ∧ wordB pr = false ∧ matchesSpec specPhone s ∧ wordB (s.get? 12) = false := by
  constructor
  · intro h
    unfold phoneTry at h
    split_ifs at h with hw
    split at h
    case _ s1 heq3 =>
      split at h
      case _ s2 heq2 =>
        split at h
        case _ rest heq4 =>
          split_ifs at h with htr
          rw [Bool.not_eq_true] at htr
          injection h with h
          obtain ⟨hd3, hr3⟩ := (dropDigits_iff 3 s _).1 heq3
          have hget3 : s.get? 3 = some '.' := by
            have : (s.drop 3).get? 0 = s.get? 3 := by rw [List.get?_drop]
            rw [← hr3] at this
            exact this.symm
          have hs1 : s1 = s.drop 4 := by
            simpa using hr3.trans (drop_cons_of_get? s 3 '.' hget3)
          subst hs1
          obtain ⟨hd2, hr2⟩ := (dropDigits_iff 3 (s.drop 4) _).1 heq2
          have hr2' : ('.' :: s2) = s.drop 7 := by
            rw [hr2, List.drop_drop]
          have hget7 : s.get? 7 = some '.' := by
            have : (s.drop 7).get? 0 = s.get? 7 := by rw [List.get?_drop]
            rw [← hr2'] at this
            exact this.symm
          have hs2 : s2 = s.drop 8 := by
            simpa using hr2'.trans (drop_cons_of_get? s 7 '.' hget7)
          subst hs2
          obtain ⟨hd4, hr4⟩ := (dropDigits_iff 4 (s.drop 8) _).1 heq4
          have hrest : rest = s.drop 12 := by
            rw [hr4, List.drop_drop]
          subst hrest
          rw [Bool.not_eq_true] at hw
          refine ⟨h.symm, hw, ?_, by rwa [drop_head_wordB] at htr⟩
          intro i q hq
          have hlen : i < specPhone.length := by
            by_contra hcon
            rw [List.get?_eq_none.2 (by omega)] at hq
            cases hq
          have hlen12 : i < 12 := by simpa [specPhone] using hlen
          have hdig : ∀ j, j < 3 → ∃ c, s.get? j = some c ∧ c.isDigit = true := hd3
          have hdig2 : ∀ j, j < 3 → ∃ c, s.get? (4 + j) = some c ∧ c.isDigit = true := by
            intro j hj
            obtain ⟨c, hc, hd⟩ := hd2 j hj
            rw [List.get?_drop] at hc
            exact ⟨c, hc, hd⟩
          have hdig4 : ∀ j, j < 4 → ∃ c, s.get? (8 + j) = some c ∧ c.isDigit = true := by
            intro j hj
            obtain ⟨c, hc, hd⟩ := hd4 j hj
            rw [List.get?_drop] at hc
            exact ⟨c, hc, hd⟩
          interval_cases i
          · injection hq with hq; subst hq; exact hdig 0 (by omega)
          · injection hq with hq; subst hq; exact hdig 1 (by omega)
          · injection hq with hq; subst hq; exact hdig 2 (by omega)
          · injection hq with hq; subst hq; exact ⟨'.', hget3, by decide⟩
          · injection hq with hq; subst hq; exact hdig2 0 (by omega)
          · injection hq with hq; subst hq; exact hdig2 1 (by omega)
          · injection hq with hq; subst hq; exact hdig2 2 (by omega)
          · injection hq with hq; subst hq; exact ⟨'.', hget7, by decide⟩
          · injection hq with hq; subst hq; exact hdig4 0 (by omega)
          · injection hq with hq; subst hq; exact hdig4 1 (by omega)
          · injection hq with hq; subst hq; exact hdig4 2 (by omega)
          · injection hq with hq; subst hq; exact hdig4 3 (by omega)
        · cases h
      · cases h
    · cases h
  · rintro ⟨rfl, hw, hms, htr⟩
    have hat : ∀ i, i < 12 → i ≠ 3 → i ≠ 7 → ∃ c, s.get? i = some c ∧ c.isDigit = true := by
      intro i hi h3 h7
      interval_cases i <;> first
        | exact hms 0 _ rfl | exact hms 1 _ rfl | exact hms 2 _ rfl
        | exact hms 4 _ rfl | exact hms 5 _ rfl | exact hms 6 _ rfl
        | exact hms 8 _ rfl | exact hms 9 _ rfl | exact hms 10 _ rfl
        | exact hms 11 _ rfl | omega
    have h3 : s.get? 3 = some '.' := by
      obtain ⟨c, hc, hb⟩ := hms 3 _ rfl
      rw [beq_iff_eq] at hb
      rwa [hb] at hc
    have h7 : s.get? 7 = some '.' := by
      obtain ⟨c, hc, hb⟩ := hms 7 _ rfl
      rw [beq_iff_eq] at hb
      rwa [hb] at hc
    have e3 : dropDigits 3 s = some ('.' :: s.drop 4) := by
      have := dropDigits_drop 0 3 s (by intro i hi; simpa using hat i (by omega) (by omega) (by omega))
      rw [List.drop_zero] at this
      rw [this, drop_cons_of_get? s 3 '.' h3]
    have e2 : dropDigits 3 (s.drop 4) = some ('.' :: s.drop 8) := by
      have := dropDigits_drop 4 3 s (by intro i hi; exact hat (4 + i) (by omega) (by omega) (by omega))
      rw [this, drop_cons_of_get? s 7 '.' h7]
    have e4 : dropDigits 4 (s.drop 8) = some (s.drop 12) := by
      exact dropDigits_drop 8 4 s (by intro i hi; exact hat (8 + i) (by omega) (by omega) (by omega))
    unfold phoneTry
    rw [if_neg (by simp [hw])]
    split
    case _ s1 heq =>
      have hs1 : s1 = s.drop 4 := by simpa using heq.symm.trans e3
      subst hs1
      split
      case _ s2 heq2 =>
        have hs2 : s2 = s.drop 8 := by simpa using heq2.symm.trans e2
        subst hs2
        split
        case _ rest heq4 =>
          have hrest : rest = s.drop 12 := by simpa using heq4.symm.trans e4
          subst hrest
          have hfalse : wordB ((s.drop 12).head?) = false := by
            rw [drop_head_wordB]
            exact htr
          rw [hfalse]
          simp
        case _ heq4 =>
          rw [e4] at heq4
          cases heq4
      case _ heq2 =>
        exact absurd e2 (by intro hcon; exact heq2 (s.drop 8) hcon)
    case _ heq =>
      exact absurd e3 (by intro hcon; exact heq (s.drop 4) hcon)

/-- Characterization of the credit-card matcher in positionwise form. -/
theorem ccTry_char (pr : Option Char) (s : List Char) (n : Nat) :
    ccTry pr s = some n ↔
      n = 16 ∧ wordB pr = false ∧ matchesSpec specCC s ∧ wordB (s.get? 16) = false := by
  have hspec : ∀ i, i < 16 → specCC.get? i = some Char.isDigit := by
    intro i hi
    interval_cases i <;> rfl
  have hspecn : ∀ i, 16 ≤ i → specCC.get? i = none := by
    intro i hi
    apply List.get?_eq_none.2
    simpa [specCC] using hi
  constructor
  · intro h
    unfold ccTry at h
    split_ifs at h with hw
    split at h
    case _ rest heq =>
      split_ifs at h with htr
      rw [Bool.not_eq_true] at htr
      rw [Bool.not_eq_true] at hw
      injection h with h
      obtain ⟨hd, hr⟩ := (dropDigits_iff 16 s _).1 heq
      subst hr
      refine ⟨h.symm, hw, ?_, by rwa [drop_head_wordB] at htr⟩
      intro i q hq
      have hlen : i < 16 := by
        by_contra hcon
        rw [hspecn i (by omega)] at hq
        cases hq
      rw [hspec i hlen] at hq
      injection hq with hq
      subst hq
      exact hd i hlen
    · cases h
  · rintro ⟨rfl, hw, hms, htr⟩
    have e : dropDigits 16 s = some (s.drop 16) := by
      have := dropDigits_drop 0 16 s (by
        intro i hi
        have := hms i Char.isDigit (hspec i hi)
        simpa using this)
      rwa [List.drop_zero] at this
    unfold ccTry
    rw [if_neg (by simp [hw])]
    split
    case _ rest heq =>
      have hrest : rest = s.drop 16 := by simpa using heq.symm.trans e
      subst hrest
      have hfalse : wordB ((s.drop 16).head?) = false := by
        rw [drop_head_wordB]
        exact htr
      rw [hfalse]
      simp
    case _ heq =>
      rw [e] at heq
      cases heq

theorem digit_isWord (c : Char) (h : c.isDigit = true) : isWordChar c = true := by
  simp [isWordChar, Char.isAlphanum, h]

/-- A fixed-shape matcher only reads the previous character through the
leading word boundary, so a boundary-preserving change of the previous
character preserves the match. -/
theorem spec_transport_prev (p : Matcher) (spec : List (Char → Bool)) (L : Nat)
    (hchar : ∀ pr s n, p pr s = some n ↔
      n = L ∧ wordB pr = false ∧ matchesSpec spec s ∧ wordB (s.get? L) = false)
    (hlen : spec.length = L)
    (hfd : ∀ q c, spec.get? 0 = some q → q c = true → isWordChar c = true)
    (hL : 1 ≤ L)
    (pr_in pr_out : Option Char) (s : List Char) (m : Nat)
    (hc : ∀ c₀, s.head? = some c₀ → boundary pr_out c₀ = true → boundary pr_in c₀ = true)
    (h : p pr_out s = some m) :
    p pr_in s = some m := by
  rw [hchar] at h
  obtain ⟨rfl, hw, hms, htb⟩ := h
  have h0 : (0 : Nat) < spec.length := by omega
  obtain ⟨c₀, hc₀, hq⟩ := hms 0 _ (List.get?_eq_get h0)
  have hw0 : isWordChar c₀ = true := hfd _ _ (List.get?_eq_get h0) hq
  have hbout : boundary pr_out c₀ = true := by
    unfold boundary
    rw [hw0, hw]
    rfl
  have hbin := hc c₀ (by rw [← List.get?_zero]; exact hc₀) hbout
  have hwin : wordB pr_in = false := by
    unfold boundary at hbin
    rw [hw0] at hbin
    cases hwb : wordB pr_in
    · rfl
    · rw [hwb] at hbin
      cases hbin
  rw [hchar]
  exact ⟨rfl, hwin, hms, htb⟩

/-- A fixed-shape match in the output of a substitution pass, cut off by the
opening bracket of a replacement, transports back to a match against the
original continuation, using the leading word boundary of the replaced
match (`hF1`). -/
theorem spec_transport_head (p : Matcher) (spec : List (Char → Bool)) (L : Nat)
    (hchar : ∀ pr s n, p pr s = some n ↔
      n = L ∧ wordB pr = false ∧ matchesSpec spec s ∧ wordB (s.get? L) = false)
    (hlen : spec.length = L)
    (hfd : ∀ q c, spec.get? 0 = some q → q c = true → isWordChar c = true)
    (hlw : ∀ q c, spec.get? (L - 1) = some q → q c = true → isWordChar c = true)
    (hbr : ∀ q, q ∈ spec → q '[' = false)
    (hL : 1 ≤ L)
    (T : List Char) (γ : Char) (u w : List Char)
    (pr_in pr_out : Option Char)
    (hT : T ≠ [])
    (hc : ∀ c₀, T.head? = some c₀ → boundary pr_out c₀ = true → boundary pr_in c₀ = true)
    (hF1 : ∀ a, T.getLast? = some a → isWordChar a = true → isWordChar γ = false)
    (m : Nat) (h : p pr_out (T ++ '[' :: w) = some m) :
    ∃ m', p pr_in (T ++ γ :: u) = some m' := by
  rw [hchar] at h
  obtain ⟨hm, hw, hms, htb⟩ := h
  have h0 : (0 : Nat) < spec.length := by omega
  obtain ⟨c₀, hc₀, hq⟩ := hms 0 _ (List.get?_eq_get h0)
  have hw0 : isWordChar c₀ = true := hfd _ _ (List.get?_eq_get h0) hq
  have hbout : boundary pr_out c₀ = true := by
    unfold boundary
    rw [hw0, hw]
    rfl
  have hhead : T.head? = some c₀ := by
    obtain ⟨t0, ts, rfl⟩ := List.exists_cons_of_ne_nil hT
    simpa using hc₀
  have hbin := hc c₀ hhead hbout
  have hwin : wordB pr_in = false := by
    unfold boundary at hbin
    rw [hw0] at hbin
    cases hwb : wordB pr_in
    · rfl
    · rw [hwb] at hbin
      cases hbin
  have hms_in : L ≤ T.length → matchesSpec spec (T ++ γ :: u) := by
    intro hle
    intro i q hq
    have hi : i < L := by
      by_contra hcon
      rw [List.get?_eq_none.2 (by omega)] at hq
      cases hq
    obtain ⟨c, hcc, hqc⟩ := hms i q hq
    rw [List.get?_append (by omega)] at hcc
    exact ⟨c, by rw [List.get?_append (by omega)]; exact hcc, hqc⟩
  rcases lt_trichotomy L T.length with hlt | heq | hgt
  · refine ⟨L, (hchar _ _ _).2 ⟨rfl, hwin, hms_in (by omega), ?_⟩⟩
    rw [List.get?_append hlt] at htb
    rw [List.get?_append hlt]
    exact htb
  · refine ⟨L, (hchar _ _ _).2 ⟨rfl, hwin, hms_in (by omega), ?_⟩⟩
    have hgl : (T ++ γ :: u).get? L = some γ := by
      rw [List.get?_append_right (by omega), heq, Nat.sub_self]
      rfl
    have hL1 : L - 1 < spec.length := by omega
    obtain ⟨cL, hcL, hqcL⟩ := hms (L - 1) _ (List.get?_eq_get hL1)
    have hword := hlw _ _ (List.get?_eq_get hL1) hqcL
    rw [List.get?_append (by omega)] at hcL
    have hlast : T.getLast? = some cL := by
      rw [List.getLast?_eq_get?, ← heq]
      exact hcL
    have hγ := hF1 cL hlast hword
    rw [hgl]
    show isWordChar γ = false
    exact hγ
  · exfalso
    have hTs : T.length < spec.length := by omega
    obtain ⟨c, hcc, hqc⟩ := hms T.length _ (List.get?_eq_get hTs)
    have hbra : (T ++ '[' :: w).get? T.length = some '[' := by
      rw [List.get?_append_right (le_refl _), Nat.sub_self]
      rfl
    rw [hbra] at hcc
    injection hcc with hcc
    subst hcc
    have := hbr _ (List.get?_mem (List.get?_eq_get hTs))
    rw [this] at hqc
    cases hqc

/-- The trailing word boundary of a fixed-shape match. -/
theorem spec_trailing (p : Matcher) (spec : List (Char → Bool)) (L : Nat)
    (hchar : ∀ pr s n, p pr s = some n ↔
      n = L ∧ wordB pr = false ∧ matchesSpec spec s ∧ wordB (s.get? L) = false)
    (hlen : spec.length = L)
    (hlw : ∀ q c, spec.get? (L - 1) = some q → q c = true → isWordChar c = true)
    (hL : 1 ≤ L)
    (pr : Option Char) (s : List Char) (n : Nat)
    (h : p pr s = some n) :
    1 ≤ n ∧ n ≤ s.length ∧ ∃ δ, s.get? (n - 1) = some δ ∧ boundaryAfter δ (s.get? n) = true := by
  rw [hchar] at h
  obtain ⟨hn, hw, hms, htb⟩ := h
  rw [hn]
  have hL1 : L - 1 < spec.length := by omega
  obtain ⟨δ, hδ, hqδ⟩ := hms (L - 1) _ (List.get?_eq_get hL1)
  have hwδ := hlw _ _ (List.get?_eq_get hL1) hqδ
  refine ⟨hL, ?_, δ, hδ, ?_⟩
  · have := List.get?_eq_some.1 hδ
    obtain ⟨hlt, _⟩ := this
    omega
  · unfold boundaryAfter
    rw [hwδ, htb]
    rfl

/-- The leading word boundary of a fixed-shape match: a word character
cannot immediately precede it. -/
theorem spec_leading (p : Matcher) (spec : List (Char → Bool)) (L : Nat)
    (hchar : ∀ pr s n, p pr s = some n ↔
      n = L ∧ wordB pr = false ∧ matchesSpec spec s ∧ wordB (s.get? L) = false)
    (a : Char) (s : List Char) (n : Nat)
    (h : p (some a) s = some n) (hwa : isWordChar a = true) :
    ∀ γ₀, s.head? = some γ₀ → isWordChar γ₀ = false := by
  rw [hchar] at h
  obtain ⟨_, hw, _, _⟩ := h
  rw [show wordB (some a) = isWordChar a from rfl, hwa] at hw
  cases hw

/-- A fixed-shape match starts with a digit. -/
theorem spec_head_digit (p : Matcher) (spec : List (Char → Bool)) (L : Nat)
    (hchar : ∀ pr s n, p pr s = some n ↔
      n = L ∧ wordB pr = false ∧ matchesSpec spec s ∧ wordB (s.get? L) = false)
    (hlen : spec.length = L)
    (hfd0 : ∀ q c, spec.get? 0 = some q → q c = true → c.isDigit = true)
    (hL : 1 ≤ L)
    (pr : Option Char) (c : Char) (z : List Char) (hnd : c.isDigit = false) :
    p pr (c :: z) = none := by
  cases hres : p pr (c :: z) with
  | none => rfl
  | some n =>
    exfalso
    rw [hchar] at hres
    obtain ⟨_, _, hms, _⟩ := hres
    have h0 : (0 : Nat) < spec.length := by omega
    obtain ⟨c', hc', hqc⟩ := hms 0 _ (List.get?_eq_get h0)
    injection hc' with hc'
    subst hc'
    rw [hfd0 _ _ (List.get?_eq_get h0) hqc] at hnd
    cases hnd

theorem specSSN_fd0 (q : Char → Bool) (c : Char) (h : specSSN.get? 0 = some q)
    (hc : q c = true) : c.isDigit = true := by
  have h' : some Char.isDigit = some q := h
  injection h' with h'
  subst h'
  exact hc

theorem specSSN_fd (q : Char → Bool) (c : Char) (h : specSSN.get? 0 = some q)
    (hc : q c = true) : isWordChar c = true :=
  digit_isWord c (specSSN_fd0 q c h hc)

theorem specSSN_lw (q : Char → Bool) (c : Char) (h : specSSN.get? (11 - 1) = some q)
    (hc : q c = true) : isWordChar c = true := by
  have h' : some Char.isDigit = some q := h
  injection h' with h'
  subst h'
  exact digit_isWord c hc

theorem specSSN_br (q : Char → Bool) (hq : q ∈ specSSN) : q '[' = false := by
  simp only [specSSN, List.mem_cons, List.not_mem_nil, or_false] at hq
  rcases hq with rfl | rfl | rfl | rfl | rfl | rfl | rfl | rfl | rfl | rfl | rfl <;> decide

theorem specPhone_fd0 (q : Char → Bool) (c : Char) (h : specPhone.get? 0 = some q)
    (hc : q c = true) : c.isDigit = true := by
  have h' : some Char.isDigit = some q := h
  injection h' with h'
  subst h'
  exact hc

theorem specPhone_fd (q : Char → Bool) (c : Char) (h : specPhone.get? 0 = some q)
    (hc : q c = true) : isWordChar c = true :=
  digit_isWord c (specPhone_fd0 q c h hc)

theorem specPhone_lw (q : Char → Bool) (c : Char) (h : specPhone.get? (12 - 1) = some q)
    (hc : q c = true) : isWordChar c = true := by
  have h' : some Char.isDigit = some q := h
  injection h' with h'
  subst h'
  exact digit_isWord c hc

theorem specPhone_br (q : Char → Bool) (hq : q ∈ specPhone) : q '[' = false := by
  simp only [specPhone, List.mem_cons, List.not_mem_nil, or_false] at hq
  rcases hq with rfl | rfl | rfl | rfl | rfl | rfl | rfl | rfl | rfl | rfl | rfl | rfl <;> decide

theorem specCC_fd0 (q : Char → Bool) (c : Char) (h : specCC.get? 0 = some q)
    (hc : q c = true) : c.isDigit = true := by
  have h' : some Char.isDigit = some q := h
  injection h' with h'
  subst h'
  exact hc

theorem specCC_fd (q : Char → Bool) (c : Char) (h : specCC.get? 0 = some q)
    (hc : q c = true) : isWordChar c = true :=
  digit_isWord c (specCC_fd0 q c h hc)

theorem specCC_lw (q : Char → Bool) (c : Char) (h : specCC.get? (16 - 1) = some q)
    (hc : q c = true) : isWordChar c = true := by
  have h' : some Char.isDigit = some q := h
  injection h' with h'
  subst h'
  exact digit_isWord c hc

theorem specCC_br (q : Char → Bool) (hq : q ∈ specCC) : q '[' = false := by
  simp only [specCC] at hq
  rw [List.eq_of_mem_replicate hq]
  decide

theorem head_drop (s : List Char) (a : Nat) : (s.drop a).head? = s.get? a := by
  induction s generalizing a with
  | nil => simp
  | cons c cs ih =>
    cases a with
    | zero => rfl
    | succ k => exact ih k

/-- A substitution pass either fixes the string (no match anywhere) or splits
it at the first match: an untouched prefix, then the replacement, then the
recursive result on the remainder of the string. -/
theorem subAux_first_match (q : Matcher) (rq : List Char) :
    ∀ (s : List Char) (pr : Option Char),
      subAux q rq pr s = s ∨
      ∃ t γ u n, s = t ++ γ :: u ∧ q (prevAfter pr t) (γ :: u) = some n ∧
        subAux q rq pr s = t ++ rq ++ subAux q rq ((γ :: u).get? (n - 1)) (u.drop (n - 1)) := by
  intro s
  induction s with
  | nil =>
    intro pr
    left
    simp [subAux]
  | cons c rest ih =>
    intro pr
    cases hq : q pr (c :: rest) with
    | some n =>
      right
      refine ⟨[], c, rest, n, rfl, hq, ?_⟩
      conv_lhs => unfold subAux
      rw [hq]
      rfl
    | none =>
      rcases ih (some c) with heq | ⟨t, γ, u, n, hsplit, hmatch, hout⟩
      · left
        conv_lhs => unfold subAux
        rw [hq, heq]
      · right
        refine ⟨c :: t, γ, u, n, by rw [hsplit]; rfl, hmatch, ?_⟩
        conv_lhs => unfold subAux
        rw [hq, hout]
        simp

/-- Generic preservation lemma for one substitution pass: if the string has
no `p`-match (or `p` is the very pattern being substituted), then the output
of substituting `q` by the bracketed replacement `rq` has no `p`-match.
The pattern-specific facts enter as hypotheses: the trailing and leading
word boundaries of `q`-matches, transport of `p`-matches over a changed
previous character and over a replacement cut, and transparency of the
replacement text to `p`-search. -/
theorem subScanNoMatch (p q : Matcher) (rq body : List Char) (hrq : rq = '[' :: body)
    (Hq1 : ∀ pr s n, q pr s = some n →
      1 ≤ n ∧ n ≤ s.length ∧ ∃ δ, s.get? (n - 1) = some δ ∧ boundaryAfter δ (s.get? n) = true)
    (Hq2 : ∀ a s n, q (some a) s = some n → isWordChar a = true →
      ∀ γ₀, s.head? = some γ₀ → isWordChar γ₀ = false)
    (Hp1 : ∀ pr_in pr_out s m,
      (∀ c₀, s.head? = some c₀ → boundary pr_out c₀ = true → boundary pr_in c₀ = true) →
      p pr_out s = some m → ∃ m', p pr_in s = some m')
    (Hp2 : ∀ T γ u w pr_in pr_out, T ≠ [] →
      (∀ c₀, T.head? = some c₀ → boundary pr_out c₀ = true → boundary pr_in c₀ = true) →
      (∀ a, T.getLast? = some a → isWordChar a = true → isWordChar γ = false) →
      ∀ m, p pr_out (T ++ '[' :: w) = some m → ∃ m', p pr_in (T ++ γ :: u) = some m')
    (Hp3 : ∀ pr z, hasMatchAux p pr (rq ++ z) = hasMatchAux p (some ']') z) :
    ∀ (N : Nat) (s : List Char), s.length ≤ N → ∀ (pr_in pr_out : Option Char),
      (∀ c₀, s.head? = some c₀ → boundary pr_out c₀ = true → boundary pr_in c₀ = true) →
      (p = q ∨ hasMatchAux p pr_in s = false) →
      hasMatchAux p pr_out (subAux q rq pr_in s) = false := by
  intro N
  induction N with
  | zero =>
    intro s hs pr_in pr_out _ _
    have : s = [] := List.length_eq_zero.1 (Nat.le_zero.1 hs)
    subst this
    simp [subAux, hasMatchAux]
  | succ N ih =>
    intro s hs pr_in pr_out compat hin
    cases s with
    | nil => simp [subAux, hasMatchAux]
    | cons c rest =>
      cases hq : q pr_in (c :: rest) with
      | none =>
        have hstep : subAux q rq pr_in (c :: rest) = c :: subAux q rq (some c) rest := by
          conv_lhs => unfold subAux
          rw [hq]
        have hnone : p pr_in (c :: rest) = none := by
          rcases hin with rfl | hin
          · exact hq
          · exact (hasMatchAux_head p pr_in c rest hin).1
        have htail_in : p = q ∨ hasMatchAux p (some c) rest = false := by
          rcases hin with rfl | hin
          · exact Or.inl rfl
          · exact Or.inr (hasMatchAux_head p pr_in c rest hin).2
        have htail : hasMatchAux p (some c) (subAux q rq (some c) rest) = false := by
          refine ih rest ?_ (some c) (some c) (fun c₀ _ h => h) htail_in
          have := hs
          simp only [List.length_cons] at this
          omega
        have hhead : p pr_out (c :: subAux q rq (some c) rest) = none := by
          cases hres : p pr_out (c :: subAux q rq (some c) rest) with
          | none => rfl
          | some m =>
            exfalso
            rcases subAux_first_match q rq rest (some c) with heq | ⟨t, γ, u, n, hsplit, hmatch, hout⟩
            · rw [heq] at hres
              obtain ⟨m', hm'⟩ := Hp1 pr_in pr_out (c :: rest) m compat hres
              rw [hnone] at hm'
              cases hm'
            · rw [hout] at hres
              have hshape : c :: (t ++ rq ++ subAux q rq ((γ :: u).get? (n - 1)) (u.drop (n - 1)))
                  = (c :: t) ++ '[' :: (body ++ subAux q rq ((γ :: u).get? (n - 1)) (u.drop (n - 1))) := by
                rw [hrq]
                simp
              rw [hshape] at hres
              have hF1 : ∀ a, (c :: t).getLast? = some a → isWordChar a = true → isWordChar γ = false := by
                intro a hlast hwa
                have h1 : prevAfter none (c :: t) = (c :: t).getLast? :=
                  prevAfter_ne_nil none (c :: t) (by simp)
                rw [hlast] at h1
                have hpa : prevAfter (some c) t = some a := h1
                rw [hpa] at hmatch
                exact Hq2 a (γ :: u) n hmatch hwa γ rfl
              have compatT : ∀ c₀, (c :: t).head? = some c₀ →
                  boundary pr_out c₀ = true → boundary pr_in c₀ = true := by
                intro c₀ h hb
                injection h with h
                subst h
                exact compat _ rfl hb
              obtain ⟨m', hm'⟩ := Hp2 (c :: t) γ u
                (body ++ subAux q rq ((γ :: u).get? (n - 1)) (u.drop (n - 1)))
                pr_in pr_out (by simp) compatT hF1 m hres
              have hback : (c :: t) ++ γ :: u = c :: rest := by
                rw [hsplit]
                rfl
              rw [hback, hnone] at hm'
              cases hm'
        rw [hstep]
        show ((p pr_out (c :: subAux q rq (some c) rest)).isSome
          || hasMatchAux p (some c) (subAux q rq (some c) rest)) = false
        rw [hhead, htail]
        rfl
      | some n =>
        obtain ⟨h1n, hnlen, δ, hδ, hba⟩ := Hq1 pr_in (c :: rest) n hq
        have hstep : subAux q rq pr_in (c :: rest)
            = rq ++ subAux q rq (some δ) (rest.drop (n - 1)) := by
          conv_lhs => unfold subAux
          rw [hq]
          show rq ++ subAux q rq ((c :: rest).get? (n - 1)) (rest.drop (n - 1))
            = rq ++ subAux q rq (some δ) (rest.drop (n - 1))
          rw [hδ]
        have hdr : rest.drop (n - 1) = (c :: rest).drop n := by
          cases n with
          | zero => omega
          | succ k => rfl
        rw [hstep, Hp3]
        refine ih (rest.drop (n - 1)) ?_ (some δ) (some ']') ?_ ?_
        · have h1 : (rest.drop (n - 1)).length = rest.length - (n - 1) := by simp
          have h2 := hs
          simp only [List.length_cons] at h2
          omega
        · intro c₀ hc₀ _
          have hget : (c :: rest).get? n = some c₀ := by
            rw [← head_drop, ← hdr]
            exact hc₀
          rw [hget] at hba
          show (isWordChar δ != isWordChar c₀) = true
          exact hba
        · rcases hin with rfl | hin
          · exact Or.inl rfl
          · right
            have hsfx := hasMatchAux_suffix p ((c :: rest).take n) pr_in ((c :: rest).drop n)
              (by rw [List.take_append_drop]; exact hin)
            rw [prevAfter_take pr_in (c :: rest) n h1n hnlen, hδ] at hsfx
            rw [hdr]
            exact hsfx

theorem takeWhile_split (p : Char → Bool) (l : List Char) (h : l.all p = false) :
    ∃ d z₀, l = l.takeWhile p ++ d :: z₀ ∧ p d = false ∧ (l.takeWhile p).all p = true := by
  induction l with
  | nil => cases h
  | cons c cs ih =>
    by_cases hc : p c = true
    · have hcs : cs.all p = false := by simpa [List.all_cons, hc] using h
      obtain ⟨d, z₀, h1, h2, h3⟩ := ih hcs
      refine ⟨d, z₀, ?_, h2, ?_⟩
      · rw [List.takeWhile_cons_of_pos hc, List.cons_append, ← h1]
      · rw [List.takeWhile_cons_of_pos hc]
        simp [List.all_cons, hc, h3]
    · rw [Bool.not_eq_true] at hc
      have htc : List.takeWhile p (c :: cs) = [] :=
        List.takeWhile_cons_of_neg (by rw [hc]; exact Bool.false_ne_true)
      exact ⟨c, cs, by rw [htc]; rfl, hc, by rw [htc]; rfl⟩

/-- The email matcher fails when the maximal local run is followed by a
character other than `'@'`. -/
theorem emailTry_blocked (pr : Option Char) (w : List Char) (d : Char) (z : List Char)
    (hw : w.all isLocalChar = true) (hd : isLocalChar d = false) (hne : (d == '@') = false) :
    emailTry pr (w ++ d :: z) = none := by
  have hself : w.takeWhile isLocalChar = w :=
    List.takeWhile_eq_self_iff.2 (fun a ha => List.all_eq_true.1 hw a ha)
  have htw : (w ++ d :: z).takeWhile isLocalChar = w := by
    rw [List.takeWhile_append, if_pos (by rw [hself]),
      List.takeWhile_cons_of_neg (by rw [hd]; exact Bool.false_ne_true)]
    simp
  cases w with
  | nil =>
    simp only [List.nil_append] at htw ⊢
    by_cases hb : boundary pr d = true
    · have hL : ((d :: z).takeWhile isLocalChar).length = 0 := by
        rw [htw]
        rfl
      simp [emailTry, hb, hL]
    · rw [Bool.not_eq_true] at hb
      simp [emailTry, hb]
  | cons a w' =>
    by_cases hb : boundary pr a = true
    · have hL : (((a :: w') ++ d :: z).takeWhile isLocalChar).length = w'.length + 1 := by
        rw [htw]
        simp
      have hg : ((a :: w') ++ d :: z).get? (w'.length + 1) = some d := by
        rw [List.get?_append_right (by simp)]
        simp
      have h0 : ((w'.length + 1 : Nat) == 0) = false := by simp
      simp only [List.cons_append] at hL hg ⊢
      simp [emailTry, hb, hL, h0, hg, hne, -List.get?_eq_getElem?]
    · rw [Bool.not_eq_true] at hb
      simp only [List.cons_append]
      simp [emailTry, hb]

/-- The email matcher fails on any string whose local run stops at a
non-`'@'` character inside a known `'@'`-free prefix. -/
theorem emailTry_fail_suffix (s₀ z : List Char)
    (h : s₀.all isLocalChar = false)
    (hat : ∀ c ∈ s₀, (c == '@') = false)
    (pr : Option Char) :
    emailTry pr (s₀ ++ z) = none := by
  obtain ⟨d, z₀, hsplit, hd, hwall⟩ := takeWhile_split isLocalChar s₀ h
  rw [hsplit, List.append_assoc, List.cons_append]
  exact emailTry_blocked pr _ d (z₀ ++ z) hwall hd
    (hat d (by rw [hsplit]; exact List.mem_append_right _ (List.mem_cons_self _ _)))

/-- `p`-search is transparent to a digit-free replacement text ending in
`']'`: any match would have to start inside it with a digit. -/
theorem crossing_digit (p : Matcher) (spec : List (Char → Bool)) (L : Nat)
    (hchar : ∀ pr s n, p pr s = some n ↔
      n = L ∧ wordB pr = false ∧ matchesSpec spec s ∧ wordB (s.get? L) = false)
    (hlen : spec.length = L)
    (hfd0 : ∀ q c, spec.get? 0 = some q → q c = true → c.isDigit = true)
    (hL : 1 ≤ L)
    (rq : List Char) (hne : rq ≠ []) (hlast : rq.getLast? = some ']')
    (hnd : rq.all (fun c => !c.isDigit) = true) :
    ∀ pr z, hasMatchAux p pr (rq ++ z) = hasMatchAux p (some ']') z := by
  intro pr z
  rw [hasMatchAux_cross]
  · rw [prevAfter_ne_nil pr rq hne, hlast]
  · intro pr' i z' hi
    have hg : rq.get? i = some (rq.get ⟨i, hi⟩) := List.get?_eq_get hi
    rw [drop_cons_of_get? rq i _ hg, List.cons_append]
    apply spec_head_digit p spec L hchar hlen hfd0 hL
    have hmem : rq.get ⟨i, hi⟩ ∈ rq := List.get_mem rq i hi
    have := List.all_eq_true.1 hnd _ hmem
    simpa using this

/-- Email search is transparent to a replacement text that is free of `'@'`,
whose local-character run stops inside it from every suffix position, and
which ends in `']'`. -/
theorem crossing_email (rq : List Char) (hne : rq ≠ []) (hlast : rq.getLast? = some ']')
    (hsuf : ∀ i, i < rq.length → (rq.drop i).all isLocalChar = false)
    (hat : ∀ c ∈ rq, (c == '@') = false) :
    ∀ pr z, hasMatchAux emailTry pr (rq ++ z) = hasMatchAux emailTry (some ']') z := by
  intro pr z
  rw [hasMatchAux_cross]
  · rw [prevAfter_ne_nil pr rq hne, hlast]
  · intro pr' i z' hi
    refine emailTry_fail_suffix (rq.drop i) z' (hsuf i hi) ?_ pr'
    intro c hc
    exact hat c (List.mem_of_mem_drop hc)

/-- Success facts of the TLD search: length at least two, bounded by the
starting candidate, and the accepted boundary position. -/
theorem tldSearch_some (v : List Char) :
    ∀ (j t : Nat), tldSearch v j = some t →
      2 ≤ t ∧ t ≤ j ∧ ∃ a, v.get? (t - 1) = some a ∧ boundaryAfter a (v.get? t) = true := by
  intro j
  induction j using Nat.strong_induction_on with
  | _ j ih =>
    match j with
    | 0 =>
      intro t h
      simp [tldSearch] at h
    | 1 =>
      intro t h
      simp [tldSearch] at h
    | (s + 2) =>
      intro t h
      unfold tldSearch at h
      cases hg : v.get? (s + 1) with
      | some a =>
        rw [hg] at h
        have h' : (if boundaryAfter a (v.get? (s + 2)) = true then some (s + 2)
            else tldSearch v (s + 1)) = some t := h
        by_cases hba : boundaryAfter a (v.get? (s + 2)) = true
        · rw [if_pos hba] at h'
          injection h' with h'
          subst h'
          exact ⟨by omega, le_refl _, a, hg, hba⟩
        · rw [if_neg hba] at h'
          obtain ⟨h1, h2, hrest⟩ := ih (s + 1) (by omega) t h'
          exact ⟨h1, by omega, hrest⟩
      | none =>
        rw [hg] at h
        have h' : tldSearch v (s + 1) = some t := h
        obtain ⟨h1, h2, hrest⟩ := ih (s + 1) (by omega) t h'
        exact ⟨h1, by omega, hrest⟩

/-- A viable TLD candidate below the starting point guarantees that the
descending TLD search succeeds. -/
theorem tldSearch_exists (v : List Char) (t : Nat) (h2 : 2 ≤ t)
    (a : Char) (ha : v.get? (t - 1) = some a) (hba : boundaryAfter a (v.get? t) = true) :
    ∀ j, t ≤ j → ∃ t', tldSearch v j = some t' := by
  intro j
  induction j using Nat.strong_induction_on with
  | _ j ih =>
    intro hle
    obtain ⟨s, rfl⟩ : ∃ s, j = s + 2 := ⟨j - 2, by omega⟩
    by_cases heq : t = s + 2
    · subst heq
      have ha' : v.get? (s + 1) = some a := ha
      exact ⟨s + 2, by simp [tldSearch, ha', hba, -List.get?_eq_getElem?]⟩
    · have hlt : t ≤ s + 1 := by omega
      obtain ⟨t', ht'⟩ := ih (s + 1) (by omega) hlt
      cases hg : v.get? (s + 1) with
      | some b =>
        by_cases hbb : boundaryAfter b (v.get? (s + 2)) = true
        · exact ⟨s + 2, by simp [tldSearch, hg, hbb, -List.get?_eq_getElem?]⟩
        · rw [Bool.not_eq_true] at hbb
          exact ⟨t', by simp [tldSearch, hg, hbb, ht', -List.get?_eq_getElem?]⟩
      | none => exact ⟨t', by simp [tldSearch, hg, ht', -List.get?_eq_getElem?]⟩

/-- The TLD search reads the string only up to the starting candidate. -/
theorem tldSearch_congr (v₁ v₂ : List Char) :
    ∀ j, (∀ i, i ≤ j → v₁.get? i = v₂.get? i) → tldSearch v₁ j = tldSearch v₂ j := by
  intro j
  induction j using Nat.strong_induction_on with
  | _ j ih =>
    intro hag
    match j with
    | 0 => rfl
    | 1 => rfl
    | (s + 2) =>
      have h1 : v₁.get? (s + 1) = v₂.get? (s + 1) := hag (s + 1) (by omega)
      have h2 : v₁.get? (s + 2) = v₂.get? (s + 2) := hag (s + 2) (le_refl _)
      have hrec : tldSearch v₁ (s + 1) = tldSearch v₂ (s + 1) :=
        ih (s + 1) (by omega) (fun i hi => hag i (by omega))
      cases hg : v₂.get? (s + 1) with
      | some a =>
        rw [hg] at h1
        unfold tldSearch
        rw [h1, hg, h2, hrec]
      | none =>
        rw [hg] at h1
        unfold tldSearch
        rw [h1, hg, hrec]

/-- Success facts of the domain search: the accepted dot position and the
TLD success after it. -/
theorem domSearch_some (u : List Char) :
    ∀ j d, domSearch u j = some d →
      ∃ k₀ t, k₀ + 1 ≤ j ∧ u.get? (k₀ + 1) = some '.' ∧
        tldSearch (u.drop (k₀ + 2)) ((u.drop (k₀ + 2)).takeWhile isTldChar).length = some t ∧
        d = (k₀ + 1) + 1 + t := by
  intro j
  induction j with
  | zero =>
    intro d h
    simp [domSearch] at h
  | succ k ih =>
    intro d h
    simp only [domSearch] at h
    split at h
    · rename_i c heq
      split at h
      · rename_i hdot
        split at h
        · rename_i t htld
          injection h with h
          refine ⟨k, t, le_refl _, ?_, htld, h.symm⟩
          rw [heq]
          have : c = '.' := by simpa using hdot
          rw [this]
        · obtain ⟨k₀, t, hk, hrest⟩ := ih d h
          exact ⟨k₀, t, by omega, hrest⟩
      · obtain ⟨k₀, t, hk, hrest⟩ := ih d h
        exact ⟨k₀, t, by omega, hrest⟩
    · obtain ⟨k₀, t, hk, hrest⟩ := ih d h
      exact ⟨k₀, t, by omega, hrest⟩

/-- A viable dot candidate below the starting point guarantees that the
descending domain search succeeds. -/
theorem domSearch_exists (u : List Char) (k₀ : Nat)
    (hdot : u.get? (k₀ + 1) = some '.')
    (t'' : Nat)
    (htld : tldSearch (u.drop (k₀ + 2)) ((u.drop (k₀ + 2)).takeWhile isTldChar).length = some t'') :
    ∀ j, k₀ + 1 ≤ j → ∃ d, domSearch u j = some d := by
  intro j
  induction j using Nat.strong_induction_on with
  | _ j ih =>
    intro hle
    obtain ⟨k, rfl⟩ : ∃ k, j = k + 1 := ⟨j - 1, by omega⟩
    by_cases heq : k₀ = k
    · subst heq
      exact ⟨k₀ + 1 + 1 + t'', by simp [domSearch, hdot, htld, -List.get?_eq_getElem?]⟩
    · have hk : k₀ + 1 ≤ k := by omega
      obtain ⟨d, hd⟩ := ih k (by omega) hk
      cases hg : u.get? (k + 1) with
      | some c =>
        by_cases hc : (c == '.') = true
        · cases htl : tldSearch (u.drop (k + 2)) ((u.drop (k + 2)).takeWhile isTldChar).length with
          | some t => exact ⟨k + 1 + 1 + t, by simp [domSearch, hg, hc, htl, -List.get?_eq_getElem?]⟩
          | none => exact ⟨d, by simp [domSearch, hg, hc, htl, hd, -List.get?_eq_getElem?]⟩
        · rw [Bool.not_eq_true] at hc
          exact ⟨d, by simp [domSearch, hg, hc, hd, -List.get?_eq_getElem?]⟩
      | none => exact ⟨d, by simp [domSearch, hg, hd, -List.get?_eq_getElem?]⟩

/-- Success elimination for the email matcher: a match yields a leading
boundary, a nonempty maximal local run, the `'@'` right after it, and a
domain-search success, with the match length assembled from them. -/
theorem emailTry_some_elim (pr : Option Char) (s : List Char) (n : Nat)
    (h : emailTry pr s = some n) :
    ∃ c s', s = c :: s' ∧ boundary pr c = true ∧
      1 ≤ (s.takeWhile isLocalChar).length ∧
      s.get? (s.takeWhile isLocalChar).length = some '@' ∧
      ∃ dlen, domSearch (s.drop ((s.takeWhile isLocalChar).length + 1))
          ((s.drop ((s.takeWhile isLocalChar).length + 1)).takeWhile isDomainChar).length
          = some dlen ∧
        n = (s.takeWhile isLocalChar).length + 1 + dlen := by
  cases s with
  | nil => simp [emailTry] at h
  | cons c s' =>
    refine ⟨c, s', rfl, ?_⟩
    simp only [emailTry] at h
    split_ifs at h with hb hL
    have hb' : boundary pr c = true := by
      cases hbc : boundary pr c
      · rw [hbc] at hb
        simp at hb
      · rfl
    have hL' : 1 ≤ ((c :: s').takeWhile isLocalChar).length := by
      rcases Nat.eq_zero_or_pos ((c :: s').takeWhile isLocalChar).length with h0 | h1
      · exact absurd (by rw [h0]; rfl) hL
      · exact h1
    refine ⟨hb', hL', ?_⟩
    split at h
    · rename_i a heq
      split_ifs at h with hat
      split at h
      · rename_i dlen hdom
        injection h with h
        have ha' : a = '@' := by simpa using hat
        rw [ha'] at heq
        exact ⟨heq, dlen, hdom, h.symm⟩
      · exact Option.noConfusion h
    · exact Option.noConfusion h

/-- Success introduction for the email matcher. -/
theorem emailTry_build (pr : Option Char) (c : Char) (s' : List Char)
    (hb : boundary pr c = true)
    (hL : 1 ≤ ((c :: s').takeWhile isLocalChar).length)
    (hat : (c :: s').get? ((c :: s').takeWhile isLocalChar).length = some '@')
    (dlen : Nat)
    (hdom : domSearch ((c :: s').drop (((c :: s').takeWhile isLocalChar).length + 1))
        (((c :: s').drop (((c :: s').takeWhile isLocalChar).length + 1)).takeWhile isDomainChar).length
        = some dlen) :
    emailTry pr (c :: s') = some (((c :: s').takeWhile isLocalChar).length + 1 + dlen) := by
  have h0 : (((c :: s').takeWhile isLocalChar).length == 0) = false := by
    simp only [beq_eq_false_iff_ne, ne_eq]
    omega
  have hdom' : domSearch (s'.drop ((c :: s').takeWhile isLocalChar).length)
      ((s'.drop ((c :: s').takeWhile isLocalChar).length).takeWhile isDomainChar).length
      = some dlen := by
    simpa using hdom
  simp [emailTry, hb, h0, hat, hdom', -List.get?_eq_getElem?]

/-- The trailing word boundary of an email match. -/
theorem emailTry_trailing (pr : Option Char) (s : List Char) (n : Nat)
    (h : emailTry pr s = some n) :
    1 ≤ n ∧ n ≤ s.length ∧ ∃ δ, s.get? (n - 1) = some δ ∧ boundaryAfter δ (s.get? n) = true := by
  obtain ⟨c, s', heq, hb, hL, hat, dlen, hdom, hn⟩ := emailTry_some_elim pr s n h
  obtain ⟨k₀, t, hk, hdot, htld, hd⟩ := domSearch_some _ _ _ hdom
  obtain ⟨h2t, htj, a, hta, hba⟩ := tldSearch_some _ _ _ htld
  rw [List.get?_drop, List.get?_drop] at hta hba
  have hlt := (List.get?_eq_some.1 hta).1
  refine ⟨by omega, by omega, a, ?_, ?_⟩
  · have hix : (s.takeWhile isLocalChar).length + 1 + (k₀ + 2 + (t - 1)) = n - 1 := by omega
    rw [hix] at hta
    exact hta
  · have hix : (s.takeWhile isLocalChar).length + 1 + (k₀ + 2 + t) = n := by omega
    rw [hix] at hba
    exact hba

/-- The leading word boundary of an email match: a word character cannot
immediately precede it. -/
theorem emailTry_leading (a : Char) (s : List Char) (n : Nat)
    (h : emailTry (some a) s = some n) (hwa : isWordChar a = true) :
    ∀ γ₀, s.head? = some γ₀ → isWordChar γ₀ = false := by
  obtain ⟨c, s', rfl, hb, _⟩ := emailTry_some_elim _ _ _ h
  intro γ₀ hγ
  injection hγ with hγ
  subst hγ
  have hbb : (isWordChar a != isWordChar c) = true := hb
  rw [hwa] at hbb
  cases hw : isWordChar c
  · rfl
  · rw [hw] at hbb
    cases hbb

/-- An email match survives a boundary-preserving change of the previous
character. -/
theorem emailTry_transport_prev (pr_in pr_out : Option Char) (s : List Char) (m : Nat)
    (compat : ∀ c₀, s.head? = some c₀ → boundary pr_out c₀ = true → boundary pr_in c₀ = true)
    (h : emailTry pr_out s = some m) : ∃ m', emailTry pr_in s = some m' := by
  obtain ⟨c, s', rfl, hb, hL, hat, dlen, hdom, _⟩ := emailTry_some_elim pr_out _ m h
  have hbin := compat c rfl hb
  exact ⟨_, emailTry_build pr_in c s' hbin hL hat dlen hdom⟩

theorem takeWhile_append_not_all (p : Char → Bool) (T x : List Char) (h : T.all p = false) :
    (T ++ x).takeWhile p = T.takeWhile p := by
  rw [List.takeWhile_append, if_neg]
  intro hcon
  have hpre : T.takeWhile p <+: T := List.takeWhile_prefix p
  have heq := hpre.eq_of_length hcon
  have hall := List.takeWhile_eq_self_iff.1 heq
  rw [List.all_eq_true.2 hall] at h
  cases h

theorem takeWhile_append_all (p : Char → Bool) (T x : List Char) (h : T.all p = true) :
    (T ++ x).takeWhile p = T ++ x.takeWhile p := by
  have hself : T.takeWhile p = T :=
    List.takeWhile_eq_self_iff.2 (fun a ha => List.all_eq_true.1 h a ha)
  rw [List.takeWhile_append, if_pos (by rw [hself])]

theorem takeWhile_len_lt_of_not_all (p : Char → Bool) (T : List Char) (h : T.all p = false) :
    (T.takeWhile p).length < T.length := by
  rcases Nat.lt_or_ge (T.takeWhile p).length T.length with hlt | hge
  · exact hlt
  · exfalso
    have hpre : T.takeWhile p <+: T := List.takeWhile_prefix p
    have hlen : (T.takeWhile p).length = T.length := le_antisymm hpre.length_le hge
    have heq := hpre.eq_of_length hlen
    have hall := List.takeWhile_eq_self_iff.1 heq
    rw [List.all_eq_true.2 hall] at h
    cases h

theorem getLast?_drop_of_ne_nil : ∀ (l : List Char) (n : Nat), l.drop n ≠ [] →
    (l.drop n).getLast? = l.getLast? := by
  intro l n
  induction n generalizing l with
  | zero => intro _; rfl
  | succ k ih =>
    intro h
    cases l with
    | nil => simp at h
    | cons c cs =>
      have hd : (c :: cs).drop (k + 1) = cs.drop k := rfl
      rw [hd] at h ⊢
      rw [ih cs h]
      cases cs with
      | nil => simp at h
      | cons d ds => rw [List.getLast?_cons_cons]

theorem get?_append_congr (T x y : List Char) (i : Nat) (hi : i < T.length) :
    (T ++ x).get? i = (T ++ y).get? i := by
  rw [List.get?_append hi, List.get?_append hi]

theorem get?_append_len (T : List Char) (d : Char) (z : List Char) :
    (T ++ d :: z).get? T.length = some d := by
  rw [List.get?_append_right (le_refl _), Nat.sub_self]
  rfl

/-- TLD-tail transport: a TLD search that succeeded against the bracketed
continuation also succeeds against the original continuation, using the
leading boundary of the replaced match for the case in which the accepted
TLD ends exactly at the cut. -/
theorem tldTail_transport (T2 : List Char) (γ : Char) (u w : List Char)
    (hlast : ∀ a, T2.getLast? = some a → isWordChar a = true → isWordChar γ = false)
    (t : Nat)
    (htld : tldSearch (T2 ++ '[' :: w) ((T2 ++ '[' :: w).takeWhile isTldChar).length = some t) :
    ∃ t₂, tldSearch (T2 ++ γ :: u) ((T2 ++ γ :: u).takeWhile isTldChar).length = some t₂ := by
  obtain ⟨h2t, htj, a, hta, hba⟩ := tldSearch_some _ _ _ htld
  by_cases hallT : T2.all isTldChar = true
  · have hJo : ((T2 ++ '[' :: w).takeWhile isTldChar).length = T2.length := by
      rw [takeWhile_append_all _ _ _ hallT, List.takeWhile_cons_of_neg (by decide)]
      simp
    have hJi : T2.length ≤ ((T2 ++ γ :: u).takeWhile isTldChar).length := by
      rw [takeWhile_append_all _ _ _ hallT]
      simp
    rw [hJo] at htj
    rcases Nat.lt_or_ge t T2.length with htlt | htge
    · have hta2 : (T2 ++ γ :: u).get? (t - 1) = some a := by
        rw [← get?_append_congr T2 ('[' :: w) (γ :: u) (t - 1) (by omega)]
        exact hta
      have hba2 : boundaryAfter a ((T2 ++ γ :: u).get? t) = true := by
        rw [← get?_append_congr T2 ('[' :: w) (γ :: u) t htlt]
        exact hba
      exact tldSearch_exists _ t h2t a hta2 hba2 _ (le_trans (le_of_lt htlt) hJi)
    · have htN : t = T2.length := le_antisymm htj htge
      have htaT : T2.get? (t - 1) = some a := by
        rw [List.get?_append (by omega)] at hta
        exact hta
      have hwa : isWordChar a = true := by
        rw [htN, get?_append_len] at hba
        have h2 : (isWordChar a != isWordChar '[') = true := hba
        have h3 : isWordChar '[' = false := by decide
        rw [h3] at h2
        simpa using h2
      have hT2ne : T2 ≠ [] := by
        intro hnil
        rw [hnil] at htN
        simp at htN
        omega
      have hlastT2 : T2.getLast? = some a := by
        rw [List.getLast?_eq_get?, ← htN]
        exact htaT
      have hγ : isWordChar γ = false := hlast a hlastT2 hwa
      have hta2 : (T2 ++ γ :: u).get? (t - 1) = some a := by
        rw [List.get?_append (by omega)]
        exact htaT
      have hba2 : boundaryAfter a ((T2 ++ γ :: u).get? t) = true := by
        rw [htN, get?_append_len]
        have h4 : (isWordChar a != isWordChar γ) = true := by
          rw [hwa, hγ]
          rfl
        exact h4
      exact tldSearch_exists _ t h2t a hta2 hba2 _ (htN ▸ hJi)
  · rw [Bool.not_eq_true] at hallT
    have hJlt := takeWhile_len_lt_of_not_all _ _ hallT
    have hcong := tldSearch_congr (T2 ++ '[' :: w) (T2 ++ γ :: u)
      ((T2 ++ '[' :: w).takeWhile isTldChar).length ?_
    · refine ⟨t, ?_⟩
      have hJo : ((T2 ++ '[' :: w).takeWhile isTldChar).length
          = (T2.takeWhile isTldChar).length := by
        rw [takeWhile_append_not_all _ _ _ hallT]
      have hJi : ((T2 ++ γ :: u).takeWhile isTldChar).length
          = (T2.takeWhile isTldChar).length := by
        rw [takeWhile_append_not_all _ _ _ hallT]
      rw [hJi, ← hJo, ← hcong]
      exact htld
    · intro i hi
      have hilt : i < T2.length := by
        rw [takeWhile_append_not_all _ _ _ hallT] at hi
        omega
      exact get?_append_congr T2 ('[' :: w) (γ :: u) i hilt

/-- Domain-tail transport: a domain search that succeeded against the
bracketed continuation also succeeds against the original continuation. -/
theorem domTail_transport (T1 : List Char) (γ : Char) (u w : List Char)
    (hlast : ∀ a, T1.getLast? = some a → isWordChar a = true → isWordChar γ = false)
    (dlen : Nat)
    (hdom : domSearch (T1 ++ '[' :: w) ((T1 ++ '[' :: w).takeWhile isDomainChar).length
      = some dlen) :
    ∃ d2, domSearch (T1 ++ γ :: u) ((T1 ++ γ :: u).takeWhile isDomainChar).length = some d2 := by
  obtain ⟨k₀, t, hk, hdot, htld, hdlen⟩ := domSearch_some _ _ _ hdom
  have hDle : ((T1 ++ '[' :: w).takeWhile isDomainChar).length ≤ T1.length := by
    by_cases hallD : T1.all isDomainChar = true
    · rw [takeWhile_append_all _ _ _ hallD, List.takeWhile_cons_of_neg (by decide)]
      simp
    · rw [Bool.not_eq_true] at hallD
      rw [takeWhile_append_not_all _ _ _ hallD]
      exact le_of_lt (takeWhile_len_lt_of_not_all _ _ hallD)
  have hDin : ((T1 ++ '[' :: w).takeWhile isDomainChar).length
      ≤ ((T1 ++ γ :: u).takeWhile isDomainChar).length := by
    by_cases hallD : T1.all isDomainChar = true
    · rw [takeWhile_append_all _ _ _ hallD, List.takeWhile_cons_of_neg (by decide),
        takeWhile_append_all _ _ _ hallD]
      simp
    · rw [Bool.not_eq_true] at hallD
      rw [takeWhile_append_not_all _ _ _ hallD, takeWhile_append_not_all _ _ _ hallD]
  have hk1 : k₀ + 1 < T1.length := by
    rcases Nat.lt_or_ge (k₀ + 1) T1.length with hlt | hge
    · exact hlt
    · exfalso
      have heq : k₀ + 1 = T1.length := by omega
      rw [heq, get?_append_len] at hdot
      exact absurd hdot (by decide)
  have hdotT : T1.get? (k₀ + 1) = some '.' := by
    rw [List.get?_append hk1] at hdot
    exact hdot
  have hdot_in : (T1 ++ γ :: u).get? (k₀ + 1) = some '.' := by
    rw [List.get?_append hk1]
    exact hdotT
  have hk2 : k₀ + 2 ≤ T1.length := hk1
  rw [List.drop_append_of_le_length hk2] at htld
  have hlast2 : ∀ a, (T1.drop (k₀ + 2)).getLast? = some a →
      isWordChar a = true → isWordChar γ = false := by
    intro a hla hwa
    by_cases hne : T1.drop (k₀ + 2) = []
    · rw [hne] at hla
      exact Option.noConfusion hla
    · rw [getLast?_drop_of_ne_nil _ _ hne] at hla
      exact hlast a hla hwa
  obtain ⟨t₂, htld_in⟩ := tldTail_transport (T1.drop (k₀ + 2)) γ u w hlast2 t htld
  refine domSearch_exists (T1 ++ γ :: u) k₀ hdot_in t₂ ?_ _ ?_
  · rw [List.drop_append_of_le_length hk2]
    exact htld_in
  · omega

/-- An email match against the bracketed continuation of a replacement
transports back to a match against the original continuation. -/
theorem emailTry_transport_head (T : List Char) (γ : Char) (u w : List Char)
    (pr_in pr_out : Option Char) (hT : T ≠ [])
    (compat : ∀ c₀, T.head? = some c₀ → boundary pr_out c₀ = true → boundary pr_in c₀ = true)
    (hF1 : ∀ a, T.getLast? = some a → isWordChar a = true → isWordChar γ = false)
    (m : Nat) (h : emailTry pr_out (T ++ '[' :: w) = some m) :
    ∃ m', emailTry pr_in (T ++ γ :: u) = some m' := by
  obtain ⟨c, s₀, hcons, hb, hL, hat, dlen, hdom, hm⟩ := emailTry_some_elim pr_out _ m h
  have hall : T.all isLocalChar = false := by
    by_contra hcon
    rw [Bool.not_eq_false] at hcon
    have htw : (T ++ '[' :: w).takeWhile isLocalChar = T := by
      rw [takeWhile_append_all _ _ _ hcon, List.takeWhile_cons_of_neg (by decide)]
      simp
    rw [htw, get?_append_len] at hat
    exact absurd hat (by decide)
  have htw_out : (T ++ '[' :: w).takeWhile isLocalChar = T.takeWhile isLocalChar :=
    takeWhile_append_not_all _ _ _ hall
  have htw_in : (T ++ γ :: u).takeWhile isLocalChar = T.takeWhile isLocalChar :=
    takeWhile_append_not_all _ _ _ hall
  have hLlt : (T.takeWhile isLocalChar).length < T.length :=
    takeWhile_len_lt_of_not_all _ _ hall
  rw [htw_out] at hL hat hdom
  rw [List.get?_append hLlt] at hat
  have hL1 : (T.takeWhile isLocalChar).length + 1 ≤ T.length := hLlt
  rw [List.drop_append_of_le_length hL1] at hdom
  have hlast1 : ∀ a, (T.drop ((T.takeWhile isLocalChar).length + 1)).getLast? = some a →
      isWordChar a = true → isWordChar γ = false := by
    intro a hla hwa
    by_cases hne : T.drop ((T.takeWhile isLocalChar).length + 1) = []
    · rw [hne] at hla
      exact Option.noConfusion hla
    · rw [getLast?_drop_of_ne_nil _ _ hne] at hla
      exact hF1 a hla hwa
  obtain ⟨d2, hdom_in⟩ := domTail_transport _ γ u w hlast1 dlen hdom
  obtain ⟨c0, T₀, rfl⟩ := List.exists_cons_of_ne_nil hT
  have hbin : boundary pr_in c0 = true := by
    apply compat c0 rfl
    have h1 : c = c0 := by
      have h2 := hcons
      rw [List.cons_append] at h2
      injection h2 with h2 _
      exact h2.symm
    rw [← h1]
    exact hb
  refine ⟨_, emailTry_build pr_in c0 (T₀ ++ γ :: u) hbin ?_ ?_ d2 ?_⟩
  · show 1 ≤ (((c0 :: T₀) ++ γ :: u).takeWhile isLocalChar).length
    rw [htw_in]
    exact hL
  · show ((c0 :: T₀) ++ γ :: u).get? ((((c0 :: T₀) ++ γ :: u).takeWhile isLocalChar).length)
      = some '@'
    rw [htw_in, List.get?_append hLlt]
    exact hat
  · show domSearch
        (((c0 :: T₀) ++ γ :: u).drop
          (((((c0 :: T₀) ++ γ :: u).takeWhile isLocalChar).length) + 1))
        ((((c0 :: T₀) ++ γ :: u).drop
          (((((c0 :: T₀) ++ γ :: u).takeWhile isLocalChar).length) + 1)).takeWhile
            isDomainChar).length = some d2
    rw [htw_in, List.drop_append_of_le_length hL1]
    exact hdom_in


/-! ### Instantiating the scan lemma for the four PII patterns -/

theorem email_Hq1 : ∀ pr s n, emailTry pr s = some n →
    1 ≤ n ∧ n ≤ s.length ∧ ∃ δ, s.get? (n - 1) = some δ ∧ boundaryAfter δ (s.get? n) = true :=
  fun pr s n h => emailTry_trailing pr s n h

theorem email_Hq2 : ∀ a s n, emailTry (some a) s = some n → isWordChar a = true →
    ∀ γ₀, s.head? = some γ₀ → isWordChar γ₀ = false :=
  fun a s n h hw => emailTry_leading a s n h hw

theorem email_Hp1 : ∀ pr_in pr_out s m,
    (∀ c₀, s.head? = some c₀ → boundary pr_out c₀ = true → boundary pr_in c₀ = true) →
    emailTry pr_out s = some m → ∃ m', emailTry pr_in s = some m' :=
  fun pr_in pr_out s m compat h => emailTry_transport_prev pr_in pr_out s m compat h

theorem email_Hp2 : ∀ T γ u w pr_in pr_out, T ≠ [] →
    (∀ c₀, T.head? = some c₀ → boundary pr_out c₀ = true → boundary pr_in c₀ = true) →
    (∀ a, T.getLast? = some a → isWordChar a = true → isWordChar γ = false) →
    ∀ m, emailTry pr_out (T ++ '[' :: w) = some m → ∃ m', emailTry pr_in (T ++ γ :: u) = some m' :=
  fun T γ u w pr_in pr_out hT compat hF1 m h =>
    emailTry_transport_head T γ u w pr_in pr_out hT compat hF1 m h

theorem ssn_Hq1 : ∀ pr s n, ssnTry pr s = some n →
    1 ≤ n ∧ n ≤ s.length ∧ ∃ δ, s.get? (n - 1) = some δ ∧ boundaryAfter δ (s.get? n) = true :=
  fun pr s n h => spec_trailing ssnTry specSSN 11 ssnTry_char rfl specSSN_lw (by decide) pr s n h

theorem ssn_Hq2 : ∀ a s n, ssnTry (some a) s = some n → isWordChar a = true →
    ∀ γ₀, s.head? = some γ₀ → isWordChar γ₀ = false :=
  fun a s n h hw => spec_leading ssnTry specSSN 11 ssnTry_char a s n h hw

theorem ssn_Hp1 : ∀ pr_in pr_out s m,
    (∀ c₀, s.head? = some c₀ → boundary pr_out c₀ = true → boundary pr_in c₀ = true) →
    ssnTry pr_out s = some m → ∃ m', ssnTry pr_in s = some m' :=
  fun pr_in pr_out s m compat h =>
    ⟨m, spec_transport_prev ssnTry specSSN 11 ssnTry_char rfl specSSN_fd (by decide)
      pr_in pr_out s m compat h⟩

theorem ssn_Hp2 : ∀ T γ u w pr_in pr_out, T ≠ [] →
    (∀ c₀, T.head? = some c₀ → boundary pr_out c₀ = true → boundary pr_in c₀ = true) →
    (∀ a, T.getLast? = some a → isWordChar a = true → isWordChar γ = false) →
    ∀ m, ssnTry pr_out (T ++ '[' :: w) = some m → ∃ m', ssnTry pr_in (T ++ γ :: u) = some m' :=
  fun T γ u w pr_in pr_out hT compat hF1 m h =>
    spec_transport_head ssnTry specSSN 11 ssnTry_char rfl specSSN_fd specSSN_lw specSSN_br
      (by decide) T γ u w pr_in pr_out hT compat hF1 m h

theorem phone_Hq1 : ∀ pr s n, phoneTry pr s = some n →
    1 ≤ n ∧ n ≤ s.length ∧ ∃ δ, s.get? (n - 1) = some δ ∧ boundaryAfter δ (s.get? n) = true :=
  fun pr s n h =>
    spec_trailing phoneTry specPhone 12 phoneTry_char rfl specPhone_lw (by decide) pr s n h

theorem phone_Hq2 : ∀ a s n, phoneTry (some a) s = some n → isWordChar a = true →
    ∀ γ₀, s.head? = some γ₀ → isWordChar γ₀ = false :=
  fun a s n h hw => spec_leading phoneTry specPhone 12 phoneTry_char a s n h hw

theorem phone_Hp1 : ∀ pr_in pr_out s m,
    (∀ c₀, s.head? = some c₀ → boundary pr_out c₀ = true → boundary pr_in c₀ = true) →
    phoneTry pr_out s = some m → ∃ m', phoneTry pr_in s = some m' :=
  fun pr_in pr_out s m compat h =>
    ⟨m, spec_transport_prev phoneTry specPhone 12 phoneTry_char rfl specPhone_fd (by decide)
      pr_in pr_out s m compat h⟩

theorem phone_Hp2 : ∀ T γ u w pr_in pr_out, T ≠ [] →
    (∀ c₀, T.head? = some c₀ → boundary pr_out c₀ = true → boundary pr_in c₀ = true) →
    (∀ a, T.getLast? = some a → isWordChar a = true → isWordChar γ = false) →
    ∀ m, phoneTry pr_out (T ++ '[' :: w) = some m → ∃ m', phoneTry pr_in (T ++ γ :: u) = some m' :=
  fun T γ u w pr_in pr_out hT compat hF1 m h =>
    spec_transport_head phoneTry specPhone 12 phoneTry_char rfl specPhone_fd specPhone_lw
      specPhone_br (by decide) T γ u w pr_in pr_out hT compat hF1 m h

theorem cc_Hq1 : ∀ pr s n, ccTry pr s = some n →
    1 ≤ n ∧ n ≤ s.length ∧ ∃ δ, s.get? (n - 1) = some δ ∧ boundaryAfter δ (s.get? n) = true :=
  fun pr s n h => spec_trailing ccTry specCC 16 ccTry_char rfl specCC_lw (by decide) pr s n h

theorem cc_Hq2 : ∀ a s n, ccTry (some a) s = some n → isWordChar a = true →
    ∀ γ₀, s.head? = some γ₀ → isWordChar γ₀ = false :=
  fun a s n h hw => spec_leading ccTry specCC 16 ccTry_char a s n h hw

theorem cc_Hp1 : ∀ pr_in pr_out s m,
    (∀ c₀, s.head? = some c₀ → boundary pr_out c₀ = true → boundary pr_in c₀ = true) →
    ccTry pr_out s = some m → ∃ m', ccTry pr_in s = some m' :=
  fun pr_in pr_out s m compat h =>
    ⟨m, spec_transport_prev ccTry specCC 16 ccTry_char rfl specCC_fd (by decide)
      pr_in pr_out s m compat h⟩

theorem cc_Hp2 : ∀ T γ u w pr_in pr_out, T ≠ [] →
    (∀ c₀, T.head? = some c₀ → boundary pr_out c₀ = true → boundary pr_in c₀ = true) →
    (∀ a, T.getLast? = some a → isWordChar a = true → isWordChar γ = false) →
    ∀ m, ccTry pr_out (T ++ '[' :: w) = some m → ∃ m', ccTry pr_in (T ++ γ :: u) = some m' :=
  fun T γ u w pr_in pr_out hT compat hF1 m h =>
    spec_transport_head ccTry specCC 16 ccTry_char rfl specCC_fd specCC_lw specCC_br
      (by decide) T γ u w pr_in pr_out hT compat hF1 m h

theorem cross_E_E : ∀ pr z,
    hasMatchAux emailTry pr (replEmail ++ z) = hasMatchAux emailTry (some ']') z :=
  crossing_email replEmail (by decide) (by decide) (by decide) (by decide)

theorem cross_E_S : ∀ pr z,
    hasMatchAux emailTry pr (replSsn ++ z) = hasMatchAux emailTry (some ']') z :=
  crossing_email replSsn (by decide) (by decide) (by decide) (by decide)

theorem cross_E_P : ∀ pr z,
    hasMatchAux emailTry pr (replPhone ++ z) = hasMatchAux emailTry (some ']') z :=
  crossing_email replPhone (by decide) (by decide) (by decide) (by decide)

theorem cross_E_C : ∀ pr z,
    hasMatchAux emailTry pr (replCc ++ z) = hasMatchAux emailTry (some ']') z :=
  crossing_email replCc (by decide) (by decide) (by decide) (by decide)

theorem cross_S_S : ∀ pr z,
    hasMatchAux ssnTry pr (replSsn ++ z) = hasMatchAux ssnTry (some ']') z :=
  crossing_digit ssnTry specSSN 11 ssnTry_char rfl specSSN_fd0 (by decide)
    replSsn (by decide) (by decide) (by decide)

theorem cross_S_P : ∀ pr z,
    hasMatchAux ssnTry pr (replPhone ++ z) = hasMatchAux ssnTry (some ']') z :=
  crossing_digit ssnTry specSSN 11 ssnTry_char rfl specSSN_fd0 (by decide)
    replPhone (by decide) (by decide) (by decide)

theorem cross_S_C : ∀ pr z,
    hasMatchAux ssnTry pr (replCc ++ z) = hasMatchAux ssnTry (some ']') z :=
  crossing_digit ssnTry specSSN 11 ssnTry_char rfl specSSN_fd0 (by decide)
    replCc (by decide) (by decide) (by decide)

theorem cross_P_P : ∀ pr z,
    hasMatchAux phoneTry pr (replPhone ++ z) = hasMatchAux phoneTry (some ']') z :=
  crossing_digit phoneTry specPhone 12 phoneTry_char rfl specPhone_fd0 (by decide)
    replPhone (by decide) (by decide) (by decide)

theorem cross_P_C : ∀ pr z,
    hasMatchAux phoneTry pr (replCc ++ z) = hasMatchAux phoneTry (some ']') z :=
  crossing_digit phoneTry specPhone 12 phoneTry_char rfl specPhone_fd0 (by decide)
    replCc (by decide) (by decide) (by decide)

theorem cross_C_C : ∀ pr z,
    hasMatchAux ccTry pr (replCc ++ z) = hasMatchAux ccTry (some ']') z :=
  crossing_digit ccTry specCC 16 ccTry_char rfl specCC_fd0 (by decide)
    replCc (by decide) (by decide) (by decide)

/-- One substitution pass preserves (or, for the pattern being substituted,
establishes) the absence of a `p`-match. -/
theorem reSub_preserves (p q : Matcher) (rq body : List Char) (hrq : rq = '[' :: body)
    (Hq1 : ∀ pr s n, q pr s = some n →
      1 ≤ n ∧ n ≤ s.length ∧ ∃ δ, s.get? (n - 1) = some δ ∧ boundaryAfter δ (s.get? n) = true)
    (Hq2 : ∀ a s n, q (some a) s = some n → isWordChar a = true →
      ∀ γ₀, s.head? = some γ₀ → isWordChar γ₀ = false)
    (Hp1 : ∀ pr_in pr_out s m,
      (∀ c₀, s.head? = some c₀ → boundary pr_out c₀ = true → boundary pr_in c₀ = true) →
      p pr_out s = some m → ∃ m', p pr_in s = some m')
    (Hp2 : ∀ T γ u w pr_in pr_out, T ≠ [] →
      (∀ c₀, T.head? = some c₀ → boundary pr_out c₀ = true → boundary pr_in c₀ = true) →
      (∀ a, T.getLast? = some a → isWordChar a = true → isWordChar γ = false) →
      ∀ m, p pr_out (T ++ '[' :: w) = some m → ∃ m', p pr_in (T ++ γ :: u) = some m')
    (Hp3 : ∀ pr z, hasMatchAux p pr (rq ++ z) = hasMatchAux p (some ']') z)
    (s : List Char) (hin : p = q ∨ hasMatch p s = false) :
    hasMatch p (reSub q rq s) = false := by
  unfold hasMatch reSub at *
  exact subScanNoMatch p q rq body hrq Hq1 Hq2 Hp1 Hp2 Hp3 s.length s (le_refl _) none none
    (fun _ _ h => h) hin

/-- The output of `mask_pii` contains no match of any of the four PII
patterns. -/
theorem mask_pii_no_match (x : List Char) :
    hasMatch emailTry (mask_pii x) = false ∧ hasMatch ssnTry (mask_pii x) = false ∧
      hasMatch phoneTry (mask_pii x) = false ∧ hasMatch ccTry (mask_pii x) = false := by
  have hE1 : hasMatch emailTry (reSub emailTry replEmail x) = false :=
    reSub_preserves emailTry emailTry replEmail replEmail.tail (by decide)
      email_Hq1 email_Hq2 email_Hp1 email_Hp2 cross_E_E x (Or.inl rfl)
  have hE2 : hasMatch emailTry (reSub ssnTry replSsn (reSub emailTry replEmail x)) = false :=
    reSub_preserves emailTry ssnTry replSsn replSsn.tail (by decide)
      ssn_Hq1 ssn_Hq2 email_Hp1 email_Hp2 cross_E_S _ (Or.inr hE1)
  have hE3 : hasMatch emailTry
      (reSub phoneTry replPhone (reSub ssnTry replSsn (reSub emailTry replEmail x))) = false :=
    reSub_preserves emailTry phoneTry replPhone replPhone.tail (by decide)
      phone_Hq1 phone_Hq2 email_Hp1 email_Hp2 cross_E_P _ (Or.inr hE2)
  have hE4 : hasMatch emailTry (reSub ccTry replCc
      (reSub phoneTry replPhone (reSub ssnTry replSsn (reSub emailTry replEmail x)))) = false :=
    reSub_preserves emailTry ccTry replCc replCc.tail (by decide)
      cc_Hq1 cc_Hq2 email_Hp1 email_Hp2 cross_E_C _ (Or.inr hE3)
  have hS2 : hasMatch ssnTry (reSub ssnTry replSsn (reSub emailTry replEmail x)) = false :=
    reSub_preserves ssnTry ssnTry replSsn replSsn.tail (by decide)
      ssn_Hq1 ssn_Hq2 ssn_Hp1 ssn_Hp2 cross_S_S _ (Or.inl rfl)
  have hS3 : hasMatch ssnTry
      (reSub phoneTry replPhone (reSub ssnTry replSsn (reSub emailTry replEmail x))) = false :=
    reSub_preserves ssnTry phoneTry replPhone replPhone.tail (by decide)
      phone_Hq1 phone_Hq2 ssn_Hp1 ssn_Hp2 cross_S_P _ (Or.inr hS2)
  have hS4 : hasMatch ssnTry (reSub ccTry replCc
      (reSub phoneTry replPhone (reSub ssnTry replSsn (reSub emailTry replEmail x)))) = false :=
    reSub_preserves ssnTry ccTry replCc replCc.tail (by decide)
      cc_Hq1 cc_Hq2 ssn_Hp1 ssn_Hp2 cross_S_C _ (Or.inr hS3)
  have hP3 : hasMatch phoneTry
      (reSub phoneTry replPhone (reSub ssnTry replSsn (reSub emailTry replEmail x))) = false :=
    reSub_preserves phoneTry phoneTry replPhone replPhone.tail (by decide)
      phone_Hq1 phone_Hq2 phone_Hp1 phone_Hp2 cross_P_P _ (Or.inl rfl)
  have hP4 : hasMatch phoneTry (reSub ccTry replCc
      (reSub phoneTry replPhone (reSub ssnTry replSsn (reSub emailTry replEmail x)))) = false :=
    reSub_preserves phoneTry ccTry replCc replCc.tail (by decide)
      cc_Hq1 cc_Hq2 phone_Hp1 phone_Hp2 cross_P_C _ (Or.inr hP3)
  have hC4 : hasMatch ccTry (reSub ccTry replCc
      (reSub phoneTry replPhone (reSub ssnTry replSsn (reSub emailTry replEmail x)))) = false :=
    reSub_preserves ccTry ccTry replCc replCc.tail (by decide)
      cc_Hq1 cc_Hq2 cc_Hp1 cc_Hp2 cross_C_C _ (Or.inl rfl)
  exact ⟨hE4, hS4, hP4, hC4⟩

/-- C7: `mask_pii` is idempotent — re-masking already-masked text is a
no-op — and for every string the masked output contains no substring
matching any of the four original PII regular expressions (email, SSN,
phone, credit card). -/
theorem mask_pii_idempotent_and_clean (x : String) :
    maskPiiStr (maskPiiStr x) = maskPiiStr x ∧
    hasMatch emailTry (maskPiiStr x).data = false ∧
    hasMatch ssnTry (maskPiiStr x).data = false ∧
    hasMatch phoneTry (maskPiiStr x).data = false ∧
    hasMatch ccTry (maskPiiStr x).data = false := by
  obtain ⟨hE, hS, hP, hC⟩ := mask_pii_no_match x.data
  have hdata : (maskPiiStr x).data = mask_pii x.data := rfl
  refine ⟨?_, by rw [hdata]; exact hE, by rw [hdata]; exact hS,
    by rw [hdata]; exact hP, by rw [hdata]; exact hC⟩
  exact maskPiiStr_of_no_match (maskPiiStr x) (hdata ▸ hE) (hdata ▸ hS) (hdata ▸ hP) (hdata ▸ hC)

/-- C3: on a state whose `final_answer` is truthy, `finalize_node`
overwrites `final_answer` with its `mask_pii` image and appends the
assistant message carrying that masked answer; the value handed back
contains no substring matching the email, SSN, phone or credit-card
pattern. -/
theorem finalize_masks_and_appends (st : State) (fa : String)
    (hfa : st.final_answer = some fa) (hne : fa ≠ "") :
    finalize_node st =
      { st with
          final_answer := some (maskPiiStr fa),
          messages := st.messages ++ [{ role := "assistant", content := maskPiiStr fa }] } ∧
    hasMatch emailTry (maskPiiStr fa).data = false ∧
    hasMatch ssnTry (maskPiiStr fa).data = false ∧
    hasMatch phoneTry (maskPiiStr fa).data = false ∧
    hasMatch ccTry (maskPiiStr fa).data = false := by
  obtain ⟨hE, hS, hP, hC⟩ := mask_pii_no_match fa.data
  exact ⟨finalize_node_truthy st fa hfa hne, hE, hS, hP, hC⟩

/-- Witness for C3 at a concrete state carrying an SSN in its answer. -/
theorem finalize_masks_and_appends_witness :
    ({ query := "q", messages := [], retrieved_chunks := [], citations := [],
       tool_calls := [], final_answer := some "SSN 123-45-6789",
       iteration_count := 0 } : State).final_answer = some "SSN 123-45-6789" ∧
    ("SSN 123-45-6789" : String) ≠ "" ∧
    (finalize_node
        { query := "q", messages := [], retrieved_chunks := [], citations := [],
          tool_calls := [], final_answer := some "SSN 123-45-6789", iteration_count := 0 } =
      { query := "q", messages := [{ role := "assistant", content := maskPiiStr "SSN 123-45-6789" }],
        retrieved_chunks := [], citations := [],
        tool_calls := [], final_answer := some (maskPiiStr "SSN 123-45-6789"),
        iteration_count := 0 } ∧
      hasMatch emailTry (maskPiiStr "SSN 123-45-6789").data = false ∧
      hasMatch ssnTry (maskPiiStr "SSN 123-45-6789").data = false ∧
      hasMatch phoneTry (maskPiiStr "SSN 123-45-6789").data = false ∧
      hasMatch ccTry (maskPiiStr "SSN 123-45-6789").data = false) :=
  ⟨rfl, by decide,
    finalize_masks_and_appends
      { query := "q", messages := [], retrieved_chunks := [], citations := [],
        tool_calls := [], final_answer := some "SSN 123-45-6789", iteration_count := 0 }
      "SSN 123-45-6789" rfl (by decide)⟩

end MiniAgent
